import Mathlib

/-!
Verification of the moamosaic mosaicing engine (src/moamosaic/mosaic.py)
against its natural-language specification.

The Python source is shallowly embedded: pure functions become Lean
functions, the writer loop becomes an explicit step function over a
writer state, numpy 2-D arrays become a dimensions-plus-lookup record,
and Python exceptions become `Except`.  Components of the repository
that live in modules not present under src/ (structures.py: BlockSpec
coordinate transform, BlockCache, GdalObjCache) are modelled from the
spec; every such definition carries a doc comment starting
"Modelled from the spec:".
-/

set_option maxHeartbeats 1000000

namespace Moamosaic

/-- A dense 2-D numpy array: row/column counts plus a pixel lookup.
Pixel values are modelled as integers (the merge kernel only needs
equality with the null sentinel, spec section 9). -/
structure NpArray where
  rows : Nat
  cols : Nat
  data : Nat → Nat → Int

/-- numpy shape tuple `(rows, cols)`. -/
def NpArray.shape (a : NpArray) : Nat × Nat := (a.rows, a.cols)

/-- Modelled from the spec: structures.BlockSpec is not under src/.
Spec section 3: "a rectangle in pixel coordinates: (top, left, xsize,
ysize). Value type; equality and hash are structural. ... input
sub-rectangles ... may have negative top/left". -/
structure BlockSpec where
  top : Int
  left : Int
  xsize : Int
  ysize : Int
deriving DecidableEq

/-- Modelled from the spec: structures.BlockReadingSpec is not under
src/.  Spec section 3: "a read unit: (outblock, filename, inblock)". -/
structure BlockReadingSpec where
  outblock : BlockSpec
  filename : String
  inblock : BlockSpec
deriving DecidableEq

/-- Modelled from the spec: structures.BlockSpecWithInputs is not under
src/.  Used by findInputsPerBlock: an output block together with the
input files intersecting it and the matching input sub-rectangles
(mosaic.py lines 398-411 call `blockWithInputs.add(filename, inblock)`
and later read `.infilelist` and `.inblocklist`). -/
structure BlockSpecWithInputs where
  outblock : BlockSpec
  infilelist : List String
  inblocklist : List BlockSpec
deriving DecidableEq

/-- Modelled from the spec: structures.ImageInfo is not under src/.
Per spec sections 1 and 4.3 the inputs reaching the planner are
co-gridded with the output grid, so the whole affine geometry reduces
to an integer pixel offset `(dx, dy)` of the input's origin within the
output grid, plus the input's pixel dimensions. -/
structure ImageInfo where
  dx : Int
  dy : Int
  ncols : Int
  nrows : Int

/-- Modelled from the spec: structures.BlockSpec.transformToFilePixelCoords
is not under src/.  Spec section 4.3: "project the tile's pixel
rectangle into the input's pixel coordinates via the combined
transform"; with co-gridded inputs this is the integer translation by
the input's pixel offset.  Returns `(fileLeft, fileTop, fileRight,
fileBottom)` as destructured at mosaic.py line 402. -/
def transformToFilePixelCoords (block : BlockSpec) (imginfo : ImageInfo) :
    Int × Int × Int × Int :=
  (block.left - imginfo.dx, block.top - imginfo.dy,
   block.left - imginfo.dx + block.xsize, block.top - imginfo.dy + block.ysize)

/-! ## makeFilelist (mosaic.py lines 321-326) -/

/-- Python `str.strip()` whitespace test (space, tab, newline, carriage
return, vertical tab, form feed). -/
def isPyWhitespace (c : Char) : Bool :=
  c = ' ' || c = '\t' || c = '\n' || c = '\r' || c = '\x0b' || c = '\x0c'

/-- Python `line.strip()`: remove leading and trailing whitespace. -/
def pyStrip (s : String) : String :=
  String.mk (((s.toList.dropWhile isPyWhitespace).reverse.dropWhile
    isPyWhitespace).reverse)

/-- mosaic.py lines 321-326.  The file is modelled as its list of raw
lines; `filelist = [line.strip() for line in open(infilelist)]`. -/
def makeFilelist (fileLines : List String) : List String :=
  fileLines.map pyStrip

/-! ## makeOutputBlockList (mosaic.py lines 357-376) -/

/-- Inner `while left < ncols` loop of makeOutputBlockList, producing
the blocks of one row of tiles.  The source advances `left` by
`xsize = min(blocksize, ncols - left)`; the `max 1` below only guards
Lean termination for blocksize = 0, where the Python loop never
terminates, and coincides with the source whenever blocksize >= 1. -/
def makeBlockRow (ncols blocksize top ysize : Nat) (left : Nat) :
    List BlockSpec :=
  if h : left < ncols then
    BlockSpec.mk (top : Nat) (left : Nat)
      (((min blocksize (ncols - left) : Nat)) : Int) (ysize : Nat) ::
      makeBlockRow ncols blocksize top ysize
        (left + max 1 (min blocksize (ncols - left)))
  else []
termination_by ncols - left
decreasing_by
  have h1 : 1 ≤ max 1 (min blocksize (ncols - left)) := le_max_left _ _
  omega

/-- Outer `while top < nrows` loop of makeOutputBlockList.  The same
`max 1` termination guard applies as in `makeBlockRow`. -/
def makeBlockRows (nrows ncols blocksize : Nat) (top : Nat) :
    List BlockSpec :=
  if h : top < nrows then
    makeBlockRow ncols blocksize top (min blocksize (nrows - top)) 0 ++
      makeBlockRows nrows ncols blocksize
        (top + max 1 (min blocksize (nrows - top)))
  else []
termination_by nrows - top
decreasing_by
  have h1 : 1 ≤ max 1 (min blocksize (nrows - top)) := le_max_left _ _
  omega

/-- mosaic.py lines 357-376: divide the output pixel grid into blocks,
row-major, right/bottom tiles clipped to the remainder. -/
def makeOutputBlockList (nrows ncols blocksize : Nat) : List BlockSpec :=
  makeBlockRows nrows ncols blocksize 0

/-! ## findInputsPerBlock (mosaic.py lines 390-420) -/

/-- The `filesForBlock` dictionary: output tile -> ordered list of
intersecting input filenames. -/
def FilesDict := List (BlockSpec × List String)

/-- Python dict lookup `filesForBlock[block]` (as an Option). -/
def dictLookup (d : FilesDict) (k : BlockSpec) : Option (List String) :=
  match d with
  | [] => none
  | (k1, l) :: rest => if k1 = k then some l else dictLookup rest k

/-- mosaic.py lines 413-415: `if block not in filesForBlock:
filesForBlock[block] = []` followed by
`filesForBlock[block].append(filename)`. -/
def dictAppend (d : FilesDict) (k : BlockSpec) (v : String) : FilesDict :=
  match d with
  | [] => [(k, [v])]
  | (k1, l) :: rest =>
      if k1 = k then (k1, l ++ [v]) :: rest else (k1, l) :: dictAppend rest k v

/-- The intersection test of mosaic.py lines 404-405:
`(fileRight + 1) >= 0 and (fileBottom + 1) >= 0 and
fileLeft <= imginfo.ncols and fileTop <= imginfo.nrows`. -/
def blockIntersectsFile (block : BlockSpec) (imginfo : ImageInfo) : Bool :=
  let (fileLeft, fileTop, fileRight, fileBottom) :=
    transformToFilePixelCoords block imginfo
  decide (fileRight + 1 ≥ 0) && decide (fileBottom + 1 ≥ 0) &&
    decide (fileLeft ≤ imginfo.ncols) && decide (fileTop ≤ imginfo.nrows)

/-- The input sub-rectangle of mosaic.py lines 408-410:
`xs = fileRight - fileLeft; ys = fileBottom - fileTop;
inblock = BlockSpec(fileTop, fileLeft, xs, ys)`. -/
def inblockFor (block : BlockSpec) (imginfo : ImageInfo) : BlockSpec :=
  match transformToFilePixelCoords block imginfo with
  | (fileLeft, fileTop, fileRight, fileBottom) =>
    ⟨fileTop, fileLeft, fileRight - fileLeft, fileBottom - fileTop⟩

/-- Inner `for filename in filelist` loop of findInputsPerBlock
(mosaic.py lines 400-415), threading the accumulating
BlockSpecWithInputs and the filesForBlock dictionary. -/
def findInputsInner (block : BlockSpec) (imgInfoDict : String → ImageInfo) :
    List String → BlockSpecWithInputs → FilesDict →
    BlockSpecWithInputs × FilesDict
  | [], bwi, d => (bwi, d)
  | filename :: rest, bwi, d =>
    if blockIntersectsFile block (imgInfoDict filename) then
      findInputsInner block imgInfoDict rest
        ⟨bwi.outblock, bwi.infilelist ++ [filename],
          bwi.inblocklist ++ [inblockFor block (imgInfoDict filename)]⟩
        (dictAppend d block filename)
    else
      findInputsInner block imgInfoDict rest bwi d

/-- Outer `for block in blockList` loop of findInputsPerBlock
(mosaic.py lines 397-418), threading the filesForBlock dictionary. -/
def findInputsOuter (filelist : List String)
    (imgInfoDict : String → ImageInfo) :
    List BlockSpec → FilesDict → List BlockSpecWithInputs × FilesDict
  | [], d => ([], d)
  | block :: rest, d =>
    let inner := findInputsInner block imgInfoDict filelist
      ⟨block, [], []⟩ d
    let restR := findInputsOuter filelist imgInfoDict rest inner.2
    (if inner.1.infilelist.length > 0 then inner.1 :: restR.1 else restR.1,
      restR.2)

/-- mosaic.py lines 390-420: for every output block, which input files
intersect it and the block bounds in each file's pixel coordinates.
Returns `(blockListWithInputs, filesForBlock)`. -/
def findInputsPerBlock (blockList : List BlockSpec)
    (filelist : List String) (imgInfoDict : String → ImageInfo) :
    List BlockSpecWithInputs × FilesDict :=
  findInputsOuter filelist imgInfoDict blockList []

/-! ## makeBlockReadingList (mosaic.py lines 423-438) -/

/-- mosaic.py lines 423-438: flatten the per-block input lists into a
single list of BlockReadingSpec, tile-major.  The source pairs
`infilelist[i]` with `inblocklist[i]` for `i in range(n)`; the two
lists always have equal length, so this is their zip. -/
def makeBlockReadingList (blockListWithInputs : List BlockSpecWithInputs) :
    List BlockReadingSpec :=
  match blockListWithInputs with
  | [] => []
  | bwi :: rest =>
    (bwi.infilelist.zip bwi.inblocklist).map
      (fun p => BlockReadingSpec.mk bwi.outblock p.1 p.2) ++
      makeBlockReadingList rest

/-! ## divideBlocksByThread (mosaic.py lines 441-450) -/

/-- Python extended slice `l[start::stride]` for stride >= 1: the
elements at positions start, start+stride, start+2*stride, ... -/
def sliceStride (stride : Nat) (l : List BlockReadingSpec) :
    List BlockReadingSpec :=
  match l with
  | [] => []
  | x :: rest => x :: sliceStride stride (rest.drop (stride - 1))
termination_by l.length
decreasing_by
  simp only [List.length_drop, List.length_cons]
  omega

/-- mosaic.py lines 441-450: `blockReadingList[i::numthreads]` for each
`i in range(numthreads)`. -/
def divideBlocksByThread (blockReadingList : List BlockReadingSpec)
    (numthreads : Nat) : List (List BlockReadingSpec) :=
  (List.range numthreads).map
    (fun i => sliceStride numthreads (blockReadingList.drop i))

/-! ## checkReaderExceptions (mosaic.py lines 298-307) -/

/-- A `futures.Future` as the writer sees it: whether the worker has
finished, and the exception it raised, if any. -/
structure Worker where
  done : Bool
  exc : Option String
deriving DecidableEq

/-- mosaic.py lines 298-307: raise the exception of the first finished
worker that holds one. -/
def checkReaderExceptions (workerList : List Worker) :
    Except String Unit :=
  match workerList with
  | [] => .ok ()
  | w :: rest =>
    if w.done then
      match w.exc with
      | some e => .error e
      | none => checkReaderExceptions rest
    else checkReaderExceptions rest

/-! ## mergeInputs (mosaic.py lines 510-522) -/

/-- mosaic.py lines 510-522: merge a list of equally-shaped arrays.
`outArr = allInputsForBlock[0]`, then for each later array overwrite
the pixels where that array is not equal to the null value (the numpy
mask assignment `outArr[nonNull] = arr[nonNull]`, which is pointwise).
The source raises IndexError on an empty list; the empty case below is
a harmless placeholder (the writer only calls this with all expected
inputs present). -/
def mergeInputs (allInputsForBlock : List NpArray) (outNullVal : Int) :
    NpArray :=
  match allInputsForBlock with
  | [] => ⟨0, 0, fun _ _ => outNullVal⟩
  | first :: rest =>
    rest.foldl
      (fun outArr arr =>
        ⟨outArr.rows, outArr.cols,
         fun r c => if arr.data r c ≠ outNullVal then arr.data r c
                    else outArr.data r c⟩)
      first

/-- The spec's merge-precedence statement, written from the spec's
words (section 8 law 3): "For any pixel, the output equals the last
non-null input in input-list order, or the null value if none."  Used
only to compare against `mergeInputs`. -/
def specLastNonNull (vals : List Int) (nullVal : Int) : Int :=
  (vals.filter (fun v => v ≠ nullVal)).getLastD nullVal

/-! ## The block queue (mosaic.py line 149) -/

/-- A Python `queue.Queue`: FIFO items plus the `maxsize` given at
construction.  Per the Python library, a maxsize <= 0 means the queue
size is infinite. -/
structure PyQueue where
  items : List (BlockReadingSpec × NpArray)
  maxsize : Nat

/-- Python `Queue.full()`: true iff `0 < maxsize <= qsize()`. -/
def PyQueue.isFull (q : PyQueue) : Bool :=
  decide (0 < q.maxsize) && decide (q.maxsize ≤ q.items.length)

/-- Python `Queue.put(item)` (blocking): returns `none` when the call
would block (queue full), otherwise the queue with the item appended. -/
def PyQueue.put (q : PyQueue) (x : BlockReadingSpec × NpArray) :
    Option PyQueue :=
  if q.isFull then none else some ⟨q.items ++ [x], q.maxsize⟩

/-- A sequence of blocking puts with no intervening gets: the queue
state after a reader enqueues `xs` while the writer consumes nothing.
`none` means some put blocked. -/
def PyQueue.putAll (q : PyQueue) (xs : List (BlockReadingSpec × NpArray)) :
    Option PyQueue :=
  match xs with
  | [] => some q
  | x :: rest =>
    match q.put x with
    | none => none
    | some q1 => q1.putAll rest

/-- mosaic.py line 149: `blockQ = queue.Queue()` — constructed with the
default `maxsize = 0`, i.e. infinite capacity. -/
def doMosaicBlockQueue : PyQueue := ⟨[], 0⟩

/-! ## readFunc (mosaic.py lines 182-224) -/

/-- One band of one opened input raster, as GDAL presents it to a
reader: pixel dimensions plus a pixel lookup (row, col). -/
structure FileRaster where
  rasterXSize : Int
  rasterYSize : Int
  pixel : Int → Int → Int

/-- The per-block body of readFunc (mosaic.py lines 196-218): clip the
inblock against the file extent, read the clipped rectangle, then slot
it into a full-size null-padded array.
`band.ReadAsArray(left1, top1, xsize1, ysize1)` yields the dense window
whose (r, c) entry is the file pixel at row top1 + r, column left1 + c;
`outArr = numpy.zeros((ysize, xsize)); outArr.fill(outNullVal);
outArr[rowoffset:rowoffset+ysize1, coloffset:coloffset+xsize1] = arr`
is the pointwise paste modelled below. -/
def readFuncOneBlock (blockInfo : BlockReadingSpec) (f : FileRaster)
    (outNullVal : Int) : NpArray :=
  let left := blockInfo.inblock.left
  let top := blockInfo.inblock.top
  let xsize := blockInfo.inblock.xsize
  let ysize := blockInfo.inblock.ysize
  let left1 := max left 0
  let top1 := max top 0
  let right1 := min (left + xsize) f.rasterXSize
  let xsize1 := right1 - left1
  let bottom1 := min (top + ysize) f.rasterYSize
  let ysize1 := bottom1 - top1
  let arr : NpArray :=
    ⟨ysize1.toNat, xsize1.toNat,
     fun r c => f.pixel (top1 + (r : Int)) (left1 + (c : Int))⟩
  let coloffset := max 0 (-left)
  let rowoffset := max 0 (-top)
  ⟨ysize.toNat, xsize.toNat,
   fun r c =>
     if rowoffset ≤ (r : Int) ∧ (r : Int) < rowoffset + ysize1 ∧
        coloffset ≤ (c : Int) ∧ (c : Int) < coloffset + xsize1 then
       arr.data ((r : Int) - rowoffset).toNat ((c : Int) - coloffset).toNat
     else outNullVal⟩

/-- mosaic.py lines 182-224: the sequence of (blockInfo, array) pairs a
reader enqueues, in order, for its list of blocks.  The handle cache
(structures.GdalObjCache, not under src/) only controls when file
handles are opened and closed; it does not affect the enqueued data,
so it is not modelled here. -/
def readFuncEnqueues (blocksToRead : List BlockReadingSpec)
    (getFile : String → FileRaster) (outNullVal : Int) :
    List (BlockReadingSpec × NpArray) :=
  blocksToRead.map
    (fun blockInfo =>
      (blockInfo, readFuncOneBlock blockInfo (getFile blockInfo.filename)
        outNullVal))

/-! ## The block cache (structures.BlockCache, used by writeFunc) -/

/-- Modelled from the spec: structures.BlockCache is not under src/.
Spec section 3: "mapping (filename, output-tile) -> pixel array";
getInputsForBlock (mosaic.py line 469) destructures a stored entry as
`(blockSpec, arr)`, so each entry retains the output tile it was
stored under. -/
def BlockCache := List ((String × BlockSpec) × (BlockSpec × NpArray))

/-- BlockCache lookup by key (filename, outblock). -/
def cacheLookup (cache : BlockCache) (filename : String)
    (outblock : BlockSpec) : Option (BlockSpec × NpArray) :=
  match cache with
  | [] => none
  | (k, v) :: rest =>
      if k = (filename, outblock) then some v
      else cacheLookup rest filename outblock

/-- `blockCache.add(filename, outblock, arr)` (mosaic.py line 257):
insert or overwrite under key (filename, outblock). -/
def cacheAdd (cache : BlockCache) (filename : String)
    (outblock : BlockSpec) (arr : NpArray) : BlockCache :=
  match cache with
  | [] => [((filename, outblock), (outblock, arr))]
  | (k, v) :: rest =>
      if k = (filename, outblock) then (k, (outblock, arr)) :: rest
      else (k, v) :: cacheAdd rest filename outblock arr

/-- `blockCache.remove(filename, outblock)` (mosaic.py line 285). -/
def cacheRemove (cache : BlockCache) (filename : String)
    (outblock : BlockSpec) : BlockCache :=
  match cache with
  | [] => []
  | (k, v) :: rest =>
      if k = (filename, outblock) then rest
      else (k, v) :: cacheRemove rest filename outblock

/-- Remove every (filename, outblock) entry for the given files
(mosaic.py lines 284-285). -/
def cacheRemoveAll (cache : BlockCache) (files : List String)
    (outblock : BlockSpec) : BlockCache :=
  match files with
  | [] => cache
  | fn :: rest => cacheRemoveAll (cacheRemove cache fn outblock) rest outblock

/-! ## getInputsForBlock (mosaic.py lines 453-486) -/

/-- Rendering of a BlockSpec for the mismatch message (the `{}` format
of the blockSpec at mosaic.py line 474). -/
def blockSpecStr (b : BlockSpec) : String :=
  "BlockSpec(top=" ++ toString b.top ++ ", left=" ++ toString b.left ++
    ", xsize=" ++ toString b.xsize ++ ", ysize=" ++ toString b.ysize ++ ")"

/-- Rendering of a numpy shape tuple for the mismatch message. -/
def shapeStr (s : Nat × Nat) : String :=
  "(" ++ toString s.1 ++ ", " ++ toString s.2 ++ ")"

/-- The ValueError message of mosaic.py lines 474-477: it names the
offending tile (blockSpec), the two clashing shapes, and the file
list. -/
def mismatchMsg (blockSpec : BlockSpec) (shp1 shp2 : Nat × Nat)
    (filelist : List String) : String :=
  "Block array mismatch at block " ++ blockSpecStr blockSpec ++ "\n" ++
    shapeStr shp1 ++ "!=" ++ shapeStr shp2 ++ "\n" ++
    String.intercalate ", " filelist

/-- Prepend `arr` onto the result of scanning the remaining files
(the `allInputsForBlock.append(arr)` of mosaic.py line 480, with a
missing or raising tail discarding the accumulation). -/
def getInputsCont (arr : NpArray)
    (r : Except String (Option (List NpArray))) :
    Except String (Option (List NpArray)) :=
  match r with
  | .error e => .error e
  | .ok none => .ok none
  | .ok (some l) => .ok (some (arr :: l))

/-- The `while i < numFiles and not missing` loop of getInputsForBlock
(mosaic.py lines 465-484), scanning the files in order.  `shp` is the
shape of the first cached array seen (`None` before one is seen; the
source then assigns `shp = arr.shape`, making the mismatch test
vacuous for that first array); a later cached array of a different
shape raises; the first missing entry ends the scan with None. -/
def getInputsLoop (cache : BlockCache) (outblock : BlockSpec)
    (fullFilelist : List String) : List String → Option (Nat × Nat) →
    Except String (Option (List NpArray))
  | [], _ => .ok (some [])
  | filename :: rest, shp =>
    match cacheLookup cache filename outblock with
    | some (blockSpec, arr) =>
      match shp with
      | none =>
        getInputsCont arr
          (getInputsLoop cache outblock fullFilelist rest (some arr.shape))
      | some s =>
        if arr.shape ≠ s then
          .error (mismatchMsg blockSpec arr.shape s fullFilelist)
        else
          getInputsCont arr
            (getInputsLoop cache outblock fullFilelist rest (some s))
    | none => .ok none

/-- mosaic.py lines 453-486: collect the cached arrays for the given
output block, in `filesForBlock[outblock]` order.  Returns the list if
all are present, None if any is missing, and raises ValueError on a
shape mismatch. -/
def getInputsForBlock (blockCache : BlockCache) (outblock : BlockSpec)
    (filesForBlock : FilesDict) : Except String (Option (List NpArray)) :=
  let filelist := (dictLookup filesForBlock outblock).getD []
  getInputsLoop blockCache outblock filelist filelist none

/-! ## writeFunc (mosaic.py lines 227-295) -/

/-- The writer's mutable state across iterations: the index `i` of the
next output tile and the block cache. -/
structure WState where
  i : Nat
  cache : BlockCache

/-- One `band.WriteArray(outArr, left, top)` call. -/
structure WriteAction where
  arr : NpArray
  left : Int
  top : Int

/-- Placeholder BlockSpec for the (never taken) out-of-range index of
`blockList[i]`; the writer loop guards `i < numOutBlocks`. -/
def defaultBlock : BlockSpec := ⟨0, 0, 0, 0⟩

/-- Drain one polled queue item into the block cache (mosaic.py lines
253-257); `qitem` is what `blockQ.get_nowait()` returned, `none` when
the queue was empty. -/
def drainOneItem (cache : BlockCache)
    (qitem : Option (BlockReadingSpec × NpArray)) : BlockCache :=
  match qitem with
  | some (blockInfo, arr) =>
      cacheAdd cache blockInfo.filename blockInfo.outblock arr
  | none => cache

/-- The all-null write of mosaic.py lines 267-271 for tile `i`: a full
(ysize, xsize) array filled with the output null value, written at the
tile's (left, top).  The numpy dtype tag is not modelled; pixel values
are plain integers throughout. -/
def writeNullTile (blockList : List BlockSpec) (nullVal : Int) (i : Nat) :
    WriteAction :=
  let outblock := blockList.getD i defaultBlock
  ⟨⟨outblock.ysize.toNat, outblock.xsize.toNat, fun _ _ => nullVal⟩,
    outblock.left, outblock.top⟩

/-- The merged write of mosaic.py lines 280-281 for tile `i`. -/
def writeMergedTile (blockList : List BlockSpec) (nullVal : Int) (i : Nat)
    (allInputBlocks : List NpArray) : WriteAction :=
  let outblock := blockList.getD i defaultBlock
  ⟨mergeInputs allInputBlocks nullVal, outblock.left, outblock.top⟩

/-- The body of one iteration of the `while i < numOutBlocks` loop of
writeFunc (mosaic.py lines 251-293), after the queue poll: handle
`outblock = blockList[i]` by the three cases of the source, then run
checkReaderExceptions.  `qItemPresent` is whether the poll yielded an
item (`blockInfo is not None`), `cache` the block cache after the
poll.  Returns the WriteArray actions of this iteration, and either
the next state or the exception that propagated.  The monitoring gauge
updates (mosaic.py lines 292-293) are not modelled. -/
def writerIterationCore (blockList : List BlockSpec) (ffb : FilesDict)
    (nullVal : Int) (workerList : List Worker) (qItemPresent : Bool)
    (cache : BlockCache) (i : Nat) :
    List WriteAction × Except String WState :=
  match dictLookup ffb (blockList.getD i defaultBlock) with
  | none =>
    -- mosaic.py lines 264-272: no intersecting inputs, write nulls
    match checkReaderExceptions workerList with
    | .error e => ([writeNullTile blockList nullVal i], .error e)
    | .ok _ => ([writeNullTile blockList nullVal i], .ok ⟨i + 1, cache⟩)
  | some files =>
    -- mosaic.py lines 273-288
    if qItemPresent || cache.length > 0 then
      match getInputsForBlock cache (blockList.getD i defaultBlock) ffb with
      | .error e => ([], .error e)
      | .ok none =>
        match checkReaderExceptions workerList with
        | .error e => ([], .error e)
        | .ok _ => ([], .ok ⟨i, cache⟩)
      | .ok (some allInputBlocks) =>
        match checkReaderExceptions workerList with
        | .error e =>
          ([writeMergedTile blockList nullVal i allInputBlocks], .error e)
        | .ok _ =>
          ([writeMergedTile blockList nullVal i allInputBlocks],
            .ok ⟨i + 1, cacheRemoveAll cache files
              (blockList.getD i defaultBlock)⟩)
    else
      match checkReaderExceptions workerList with
      | .error e => ([], .error e)
      | .ok _ => ([], .ok ⟨i, cache⟩)

/-- One iteration of the writeFunc loop (mosaic.py lines 251-293):
poll-and-cache, then the iteration body. -/
def writerIteration (blockList : List BlockSpec)
    (filesForBlock : FilesDict) (nullVal : Int)
    (qitem : Option (BlockReadingSpec × NpArray)) (workerList : List Worker)
    (st : WState) : List WriteAction × Except String WState :=
  writerIterationCore blockList filesForBlock nullVal workerList
    qitem.isSome (drainOneItem st.cache qitem) st.i

/-- The full `while i < numOutBlocks` loop of writeFunc, driven by
fuel (the Python loop runs until all tiles are written; fuel running
out models an unfinished run).  `qsched t` is the item the queue
delivered at iteration `t` (`none` = queue empty then); the worker
list is the fixed pool of reader futures. -/
def writeLoop (blockList : List BlockSpec) (filesForBlock : FilesDict)
    (nullVal : Int) (workerList : List Worker)
    (qsched : Nat → Option (BlockReadingSpec × NpArray)) :
    Nat → Nat → WState → List WriteAction × Except String WState :=
  fun fuel t st =>
    match fuel with
    | 0 => ([], .ok st)
    | fuel1 + 1 =>
      if st.i < blockList.length then
        match writerIteration blockList filesForBlock nullVal (qsched t)
          workerList st with
        | (acts, .error e) => (acts, .error e)
        | (acts, .ok st1) =>
          match writeLoop blockList filesForBlock nullVal workerList qsched
            fuel1 (t + 1) st1 with
          | (acts2, res) => (acts ++ acts2, res)
      else ([], .ok st)

/-! ## Helper lemmas -/

theorem pyStrip_all_ws (s : String) (h : s.toList.all isPyWhitespace = true) :
    pyStrip s = "" := by
  unfold pyStrip
  have h1 : s.toList.dropWhile isPyWhitespace = [] := by
    rw [List.dropWhile_eq_nil_iff]
    intro x hx
    exact List.all_eq_true.mp h x hx
  rw [h1]
  rfl

theorem mergeFold_rows (nv : Int) (rest : List NpArray) :
    ∀ (first : NpArray),
      (rest.foldl
        (fun outArr arr =>
          ⟨outArr.rows, outArr.cols,
           fun r c => if arr.data r c ≠ nv then arr.data r c
                      else outArr.data r c⟩)
        first).rows = first.rows ∧
      (rest.foldl
        (fun outArr arr =>
          ⟨outArr.rows, outArr.cols,
           fun r c => if arr.data r c ≠ nv then arr.data r c
                      else outArr.data r c⟩)
        first).cols = first.cols := by
  induction rest with
  | nil => intro first; exact ⟨rfl, rfl⟩
  | cons a rest ih =>
    intro first
    simpa using ih ⟨first.rows, first.cols,
      fun r c => if a.data r c ≠ nv then a.data r c else first.data r c⟩

theorem mergeFold_data (nv : Int) (r c : Nat) (rest : List NpArray) :
    ∀ (first : NpArray),
      (rest.foldl
        (fun outArr arr =>
          ⟨outArr.rows, outArr.cols,
           fun r1 c1 => if arr.data r1 c1 ≠ nv then arr.data r1 c1
                        else outArr.data r1 c1⟩)
        first).data r c =
      (rest.map (fun a => a.data r c)).foldl
        (fun o v => if v ≠ nv then v else o) (first.data r c) := by
  induction rest with
  | nil => intro first; rfl
  | cons a rest ih =>
    intro first
    simpa using ih ⟨first.rows, first.cols,
      fun r1 c1 => if a.data r1 c1 ≠ nv then a.data r1 c1
                   else first.data r1 c1⟩

theorem foldl_lastNonNull (nv : Int) (vals : List Int) :
    ∀ (d : Int),
      vals.foldl (fun o v => if v ≠ nv then v else o) d =
      (vals.filter (fun v => v ≠ nv)).getLastD d := by
  induction vals with
  | nil => intro d; rfl
  | cons v rest ih =>
    intro d
    by_cases hv : v = nv
    · have h1 : (if v ≠ nv then v else d) = d := by simp [hv]
      have h2 : (v :: rest).filter (fun v => v ≠ nv) =
          rest.filter (fun v => v ≠ nv) := by simp [hv]
      rw [List.foldl_cons, h1, h2]
      exact ih d
    · have h1 : (if v ≠ nv then v else d) = v := by simp [hv]
      have h2 : (v :: rest).filter (fun v => v ≠ nv) =
          v :: rest.filter (fun v => v ≠ nv) := by simp [hv]
      rw [List.foldl_cons, h1, h2, List.getLastD_cons]
      exact ih v

theorem specLastNonNull_cons (nv d : Int) (vals : List Int) :
    specLastNonNull (d :: vals) nv =
      (vals.filter (fun v => v ≠ nv)).getLastD d := by
  unfold specLastNonNull
  by_cases hd : d = nv
  · have h2 : (d :: vals).filter (fun v => v ≠ nv) =
        vals.filter (fun v => v ≠ nv) := by simp [hd]
    rw [h2, hd]
  · have h2 : (d :: vals).filter (fun v => v ≠ nv) =
        d :: vals.filter (fun v => v ≠ nv) := by simp [hd]
    rw [h2, List.getLastD_cons]

/-! ## C2: merge precedence -/

/-- C2.  For every non-empty list of equally-shaped input arrays and
every null value, mergeInputs returns an array in which each pixel
equals the last input array in list order whose pixel is not equal to
the null value, or the null value if that pixel is null in every
input. -/
theorem mergeInputs_last_non_null (allInputs : List NpArray) (nv : Int)
    (R C : Nat) (hne : allInputs ≠ [])
    (hshape : ∀ a ∈ allInputs, a.rows = R ∧ a.cols = C) :
    (mergeInputs allInputs nv).rows = R ∧
    (mergeInputs allInputs nv).cols = C ∧
    ∀ r c, (mergeInputs allInputs nv).data r c =
      specLastNonNull (allInputs.map (fun a => a.data r c)) nv := by
  match allInputs, hne with
  | first :: rest, _ =>
    have hfirst := hshape first (List.mem_cons_self _ _)
    refine ⟨?_, ?_, ?_⟩
    · rw [show mergeInputs (first :: rest) nv = rest.foldl _ first from rfl]
      rw [(mergeFold_rows nv rest first).1]
      exact hfirst.1
    · rw [show mergeInputs (first :: rest) nv = rest.foldl _ first from rfl]
      rw [(mergeFold_rows nv rest first).2]
      exact hfirst.2
    · intro r c
      rw [show mergeInputs (first :: rest) nv = rest.foldl _ first from rfl]
      rw [mergeFold_data nv r c rest first]
      rw [foldl_lastNonNull nv]
      rw [List.map_cons, specLastNonNull_cons]

/-- Witness for C2 at a concrete input: two 1x1 arrays, second null at
the pixel, so the first (last non-null) wins. -/
theorem mergeInputs_last_non_null_witness :
    ([(⟨1, 1, fun _ _ => 5⟩ : NpArray), ⟨1, 1, fun _ _ => 0⟩] ≠
      ([] : List NpArray)) ∧
    (mergeInputs [⟨1, 1, fun _ _ => 5⟩, ⟨1, 1, fun _ _ => 0⟩] 0).rows = 1 ∧
    (mergeInputs [⟨1, 1, fun _ _ => 5⟩, ⟨1, 1, fun _ _ => 0⟩] 0).data 0 0 =
      specLastNonNull [5, 0] 0 := by
  have h := mergeInputs_last_non_null
    [⟨1, 1, fun _ _ => 5⟩, ⟨1, 1, fun _ _ => 0⟩] 0 1 1
    (by simp)
    (by intro a ha
        simp only [List.mem_cons, List.not_mem_nil, or_false] at ha
        rcases ha with h1 | h1 <;> rw [h1] <;> exact ⟨rfl, rfl⟩)
  exact ⟨by simp, h.1, h.2.2 0 0⟩

/-! ## C10: makeFilelist -/

/-- C10.  makeFilelist returns exactly one entry per line with leading
and trailing whitespace stripped, in file order; blank lines are not
filtered out and become empty-string filenames. -/
theorem makeFilelist_per_line (fileLines : List String) :
    (makeFilelist fileLines).length = fileLines.length ∧
    (∀ i, (makeFilelist fileLines).get? i = (fileLines.get? i).map pyStrip) ∧
    (∀ line ∈ fileLines, line.toList.all isPyWhitespace = true →
      pyStrip line = "") := by
  refine ⟨List.length_map _ _, ?_, ?_⟩
  · intro i
    simp [makeFilelist, List.get?_map]
  · intro line _ hws
    exact pyStrip_all_ws line hws

/-- Witness for C10 at a concrete input: three lines, one of them
whitespace-only, which survives as the empty string. -/
theorem makeFilelist_per_line_witness :
    (makeFilelist ["  a.tif ", " \t", "b.tif"]).length = 3 ∧
    (makeFilelist ["  a.tif ", " \t", "b.tif"]).get? 1 = some (pyStrip " \t") ∧
    pyStrip " \t" = "" := by
  have h := makeFilelist_per_line ["  a.tif ", " \t", "b.tif"]
  refine ⟨h.1, ?_, h.2.2 " \t" (by simp) (by decide)⟩
  rw [h.2.1 1]
  rfl

/-! ## C6: stride partition -/

theorem sliceStride_get? (N : Nat) (hN : 1 ≤ N) :
    ∀ (j : Nat) (l : List BlockReadingSpec),
      (sliceStride N l).get? j = l.get? (j * N) := by
  intro j
  induction j with
  | zero =>
    intro l
    match l with
    | [] => simp [sliceStride]
    | x :: rest =>
      have he : sliceStride N (x :: rest) =
          x :: sliceStride N (rest.drop (N - 1)) := by
        rw [sliceStride]
      rw [he, Nat.zero_mul]
      rfl
  | succ j ih =>
    intro l
    match l with
    | [] => simp [sliceStride]
    | x :: rest =>
      have he : sliceStride N (x :: rest) =
          x :: sliceStride N (rest.drop (N - 1)) := by
        rw [sliceStride]
      rw [he, List.get?_cons_succ, ih (rest.drop (N - 1)), List.get?_drop]
      have hidx : N - 1 + j * N + 1 = (j + 1) * N := by
        cases N with
        | zero => omega
        | succ n => simp only [Nat.succ_sub_one]; ring
      rw [← hidx, List.get?_cons_succ]

/-- C6.  For every reading list and every N >= 1, divideBlocksByThread
returns N sublists where sublist k contains exactly the items at
positions k, k+N, k+2N, ... of the reading list in order, so every
item of the reading list appears in exactly one sublist. -/
theorem divideBlocksByThread_stride (l : List BlockReadingSpec) (N : Nat)
    (hN : 1 ≤ N) :
    (divideBlocksByThread l N).length = N ∧
    (∀ k, k < N → ∃ sub, (divideBlocksByThread l N).get? k = some sub ∧
      ∀ j, sub.get? j = l.get? (k + j * N)) ∧
    (∀ p, p < l.length → p % N < N ∧ p = p % N + (p / N) * N ∧
      ∀ k1 j1, k1 < N → p = k1 + j1 * N → k1 = p % N ∧ j1 = p / N) := by
  refine ⟨by simp [divideBlocksByThread], ?_, ?_⟩
  · intro k hk
    refine ⟨sliceStride N (l.drop k), ?_, ?_⟩
    · show ((List.range N).map _).get? k = _
      rw [List.get?_map, List.get?_range hk]
      rfl
    · intro j
      rw [sliceStride_get? N hN j (l.drop k), List.get?_drop]
  · intro p hp
    have hN0 : 0 < N := hN
    have hED := Nat.mod_add_div p N
    refine ⟨Nat.mod_lt p hN0, by rw [Nat.mul_comm]; omega, ?_⟩
    intro k1 j1 hk1 hpeq
    have hmod : k1 = p % N := by
      rw [hpeq, Nat.add_mul_mod_self_right, Nat.mod_eq_of_lt hk1]
    refine ⟨hmod, ?_⟩
    have hj : j1 * N = (p / N) * N := by
      have h2 : (p / N) * N = N * (p / N) := Nat.mul_comm _ _
      omega
    exact Nat.eq_of_mul_eq_mul_right hN0 hj

/-- Witness for C6 at a concrete input: a 5-element reading list split
across 2 threads. -/
theorem divideBlocksByThread_stride_witness :
    1 ≤ 2 ∧
    (divideBlocksByThread
      [⟨⟨0,0,1,1⟩, "a", ⟨0,0,1,1⟩⟩, ⟨⟨0,1,1,1⟩, "a", ⟨0,1,1,1⟩⟩,
       ⟨⟨0,2,1,1⟩, "a", ⟨0,2,1,1⟩⟩, ⟨⟨0,3,1,1⟩, "a", ⟨0,3,1,1⟩⟩,
       ⟨⟨0,4,1,1⟩, "a", ⟨0,4,1,1⟩⟩] 2).length = 2 := by
  exact ⟨by decide,
    (divideBlocksByThread_stride
      [⟨⟨0,0,1,1⟩, "a", ⟨0,0,1,1⟩⟩, ⟨⟨0,1,1,1⟩, "a", ⟨0,1,1,1⟩⟩,
       ⟨⟨0,2,1,1⟩, "a", ⟨0,2,1,1⟩⟩, ⟨⟨0,3,1,1⟩, "a", ⟨0,3,1,1⟩⟩,
       ⟨⟨0,4,1,1⟩, "a", ⟨0,4,1,1⟩⟩] 2 (by decide)).1⟩

/-! ## C1: the block queue bound -/

/-- A small input raster used in concrete scenarios. -/
def exampleFile : FileRaster := ⟨8, 8, fun _ _ => 1⟩

/-- A reading list of three blocks, as assigned to the single reader of
a numthreads = 1 run. -/
def exampleBlocksToRead : List BlockReadingSpec :=
  [⟨⟨0, 0, 2, 2⟩, "f", ⟨0, 0, 2, 2⟩⟩,
   ⟨⟨0, 2, 2, 2⟩, "f", ⟨0, 2, 2, 2⟩⟩,
   ⟨⟨2, 0, 2, 2⟩, "f", ⟨2, 0, 2, 2⟩⟩]

/-- Counterexample to C1.  The queue of mosaic.py line 149 is created
with the default maxsize = 0, i.e. unbounded: a single reader
(numthreads = 1) enqueueing its three blocks while the writer consumes
nothing never blocks, the queue is never full, and the depth reaches
3 > 2 = 2 * numthreads, violating the claimed 2*N bound. -/
theorem blockQueue_bound_counterexample :
    doMosaicBlockQueue.maxsize = 0 ∧
    (doMosaicBlockQueue.putAll
      (readFuncEnqueues exampleBlocksToRead (fun _ => exampleFile) 0)).map
        (fun q => (q.items.length, q.isFull)) = some (3, false) ∧
    ¬ (3 ≤ 2 * 1) := by
  exact ⟨rfl, rfl, by decide⟩

/-- C1 amended.  The block queue is created unbounded (queue.Queue()
with the default maxsize 0, mosaic.py line 149): it is never full, a
reader enqueue never blocks, and after any sequence of enqueues with
no dequeues the depth equals the number of items enqueued — it is not
capped at 2 * numThreads. -/
theorem blockQueue_unbounded :
    doMosaicBlockQueue.maxsize = 0 ∧
    ∀ (q : PyQueue), q.maxsize = 0 →
      q.isFull = false ∧
      ∀ xs, q.putAll xs = some ⟨q.items ++ xs, q.maxsize⟩ := by
  refine ⟨rfl, ?_⟩
  have hput : ∀ (xs : List (BlockReadingSpec × NpArray)) (q : PyQueue),
      q.maxsize = 0 → q.putAll xs = some ⟨q.items ++ xs, q.maxsize⟩ := by
    intro xs
    induction xs with
    | nil => intro q _; simp [PyQueue.putAll]
    | cons x rest ih =>
      intro q hq
      have hf : q.isFull = false := by simp [PyQueue.isFull, hq]
      simp only [PyQueue.putAll, PyQueue.put, hf, Bool.false_eq_true,
        if_false]
      rw [ih ⟨q.items ++ [x], q.maxsize⟩ hq]
      simp
  intro q hq
  exact ⟨by simp [PyQueue.isFull, hq], fun xs => hput xs q hq⟩

/-- Witness for the amended C1 at a concrete input: the reader's three
enqueues all succeed on the line-149 queue and leave depth 3. -/
theorem blockQueue_unbounded_witness :
    doMosaicBlockQueue.maxsize = 0 ∧
    doMosaicBlockQueue.putAll
      (readFuncEnqueues exampleBlocksToRead (fun _ => exampleFile) 0) =
      some ⟨readFuncEnqueues exampleBlocksToRead (fun _ => exampleFile) 0,
        0⟩ := by
  have h := blockQueue_unbounded
  refine ⟨h.1, ?_⟩
  have h2 := (h.2 doMosaicBlockQueue rfl).2
    (readFuncEnqueues exampleBlocksToRead (fun _ => exampleFile) 0)
  simpa [doMosaicBlockQueue] using h2

/-! ## C4: reader-fault fail-fast -/

theorem getInputsLoop_error_form (cache : BlockCache) (ob : BlockSpec)
    (full : List String) :
    ∀ (files : List String) (shp : Option (Nat × Nat)) (e : String),
      getInputsLoop cache ob full files shp = .error e →
      ∃ bs s1 s2, e = mismatchMsg bs s1 s2 full := by
  intro files
  induction files with
  | nil => intro shp e h; exact absurd h (by simp [getInputsLoop])
  | cons fn rest ih =>
    intro shp e h
    rcases hlk : cacheLookup cache fn ob with _ | ⟨bs, arr⟩
    · simp [getInputsLoop, hlk] at h
    · rcases shp with _ | s
      · simp only [getInputsLoop, hlk] at h
        rcases hrec : getInputsLoop cache ob full rest (some arr.shape) with
            e1 | ol
        · rw [hrec] at h
          simp only [getInputsCont, Except.error.injEq] at h
          exact h ▸ ih _ e1 hrec
        · rcases ol with _ | l <;> rw [hrec] at h <;>
            simp [getInputsCont] at h
      · simp only [getInputsLoop, hlk] at h
        by_cases hsh : arr.shape ≠ s
        · rw [if_pos hsh] at h
          exact ⟨bs, arr.shape, s, ((Except.error.injEq _ _).mp h).symm⟩
        · rw [if_neg hsh] at h
          rcases hrec : getInputsLoop cache ob full rest (some s) with
              e1 | ol
          · rw [hrec] at h
            simp only [getInputsCont, Except.error.injEq] at h
            exact h ▸ ih _ e1 hrec
          · rcases ol with _ | l <;> rw [hrec] at h <;>
              simp [getInputsCont] at h

theorem getInputsForBlock_error_form (cache : BlockCache)
    (ob : BlockSpec) (ffb : FilesDict) (e : String)
    (h : getInputsForBlock cache ob ffb = .error e) :
    ∃ bs s1 s2, e = mismatchMsg bs s1 s2
      ((dictLookup ffb ob).getD []) := by
  exact getInputsLoop_error_form cache ob _ _ none e h

theorem writerIterationCore_reader_fault (blockList : List BlockSpec)
    (ffb : FilesDict) (nv : Int) (ws : List Worker) (b : Bool)
    (cache : BlockCache) (i : Nat) (e : String)
    (hchk : checkReaderExceptions ws = .error e) :
    (writerIterationCore blockList ffb nv ws b cache i).1.length ≤ 1 ∧
    ((writerIterationCore blockList ffb nv ws b cache i).2 = .error e ∨
      ∃ bs s1 s2 fl,
        (writerIterationCore blockList ffb nv ws b cache i).2 =
          .error (mismatchMsg bs s1 s2 fl)) := by
  unfold writerIterationCore
  split
  · rw [hchk]
    exact ⟨by simp, Or.inl rfl⟩
  · split
    · split
      next e1 hg =>
        refine ⟨by simp, Or.inr ?_⟩
        obtain ⟨bs, s1, s2, he⟩ := getInputsForBlock_error_form _ _ _ e1 hg
        exact ⟨bs, s1, s2, _, by rw [he]⟩
      next hg =>
        rw [hchk]
        exact ⟨by simp, Or.inl rfl⟩
      next arrs hg =>
        rw [hchk]
        exact ⟨by simp, Or.inl rfl⟩
    · rw [hchk]
      exact ⟨by simp, Or.inl rfl⟩

theorem writerIteration_reader_fault (blockList : List BlockSpec)
    (ffb : FilesDict) (nv : Int)
    (qitem : Option (BlockReadingSpec × NpArray))
    (ws : List Worker) (st : WState) (e : String)
    (hchk : checkReaderExceptions ws = .error e) :
    (writerIteration blockList ffb nv qitem ws st).1.length ≤ 1 ∧
    ((writerIteration blockList ffb nv qitem ws st).2 = .error e ∨
      ∃ bs s1 s2 fl,
        (writerIteration blockList ffb nv qitem ws st).2 =
          .error (mismatchMsg bs s1 s2 fl)) := by
  unfold writerIteration
  exact writerIterationCore_reader_fault blockList ffb nv ws qitem.isSome
    (drainOneItem st.cache qitem) st.i e hchk

/-- C4.  After every writer iteration the finished readers are
inspected; a finished reader holding an exception makes
checkReaderExceptions re-raise it, and a writer loop iteration running
against such a worker list terminates the run at once — at most the
tile in progress is written, no later tile is — with that exception
(or with the shape-mismatch ValueError that the same iteration itself
raised first). -/
theorem readerFault_failFast (workerList : List Worker) :
    ((∃ w ∈ workerList, w.done = true ∧ w.exc.isSome = true) ↔
      ∃ e, checkReaderExceptions workerList = .error e) ∧
    (∀ e, checkReaderExceptions workerList = .error e →
      ∀ (blockList : List BlockSpec) (ffb : FilesDict) (nv : Int)
        (qsched : Nat → Option (BlockReadingSpec × NpArray))
        (fuel t : Nat) (st : WState),
        st.i < blockList.length →
        (writeLoop blockList ffb nv workerList qsched
          (fuel + 1) t st).1.length ≤ 1 ∧
        ((writeLoop blockList ffb nv workerList qsched
            (fuel + 1) t st).2 = .error e ∨
          ∃ bs s1 s2 fl,
            (writeLoop blockList ffb nv workerList qsched
              (fuel + 1) t st).2 = .error (mismatchMsg bs s1 s2 fl))) := by
  constructor
  · induction workerList with
    | nil => simp [checkReaderExceptions]
    | cons w rest ih =>
      rcases hdone : w.done with _ | _
      · simp only [checkReaderExceptions, hdone, Bool.false_eq_true,
          if_false]
        rw [← ih]
        constructor
        · rintro ⟨w1, hw1, hdw⟩
          rcases List.mem_cons.mp hw1 with h1 | h1
          · rw [h1] at hdw; rw [hdone] at hdw; exact absurd hdw.1 (by simp)
          · exact ⟨w1, h1, hdw⟩
        · rintro ⟨w1, hw1, hdw⟩
          exact ⟨w1, List.mem_cons_of_mem _ hw1, hdw⟩
      · rcases hexc : w.exc with _ | e0
        · simp only [checkReaderExceptions, hdone, if_true, hexc]
          rw [← ih]
          constructor
          · rintro ⟨w1, hw1, hdw⟩
            rcases List.mem_cons.mp hw1 with h1 | h1
            · rw [h1, hexc] at hdw; exact absurd hdw.2 (by simp)
            · exact ⟨w1, h1, hdw⟩
          · rintro ⟨w1, hw1, hdw⟩
            exact ⟨w1, List.mem_cons_of_mem _ hw1, hdw⟩
        · constructor
          · intro _
            exact ⟨e0, by simp [checkReaderExceptions, hdone, hexc]⟩
          · intro _
            exact ⟨w, List.mem_cons_self _ _, hdone, by rw [hexc]; rfl⟩
  · intro e hchk blockList ffb nv qsched fuel t st hi
    obtain ⟨hlen, hres⟩ :=
      writerIteration_reader_fault blockList ffb nv (qsched t) workerList
        st e hchk
    have hloop : writeLoop blockList ffb nv workerList qsched
        (fuel + 1) t st =
        ((writerIteration blockList ffb nv (qsched t) workerList st).1,
          (writerIteration blockList ffb nv (qsched t) workerList st).2) := by
      rcases hres with h | ⟨bs, s1, s2, fl, h⟩
      all_goals {
        show (if st.i < blockList.length then _ else _) = _
        rw [if_pos hi]
        rcases hpair : writerIteration blockList ffb nv (qsched t)
          workerList st with ⟨acts, res⟩
        rw [hpair] at h
        simp only at h
        rw [h]
      }
    rcases hres with h | ⟨bs, s1, s2, fl, h⟩
    · rw [hloop]
      exact ⟨hlen, Or.inl h⟩
    · rw [hloop]
      exact ⟨hlen, Or.inr ⟨bs, s1, s2, fl, h⟩⟩

/-- Witness for C4 at a concrete input: one finished faulted worker,
one tile to write; the loop terminates with the worker's exception
after at most one write. -/
theorem readerFault_failFast_witness :
    checkReaderExceptions [⟨true, some "boom"⟩] = .error "boom" ∧
    (writeLoop [⟨0, 0, 2, 2⟩] [] 0 [⟨true, some "boom"⟩]
      (fun _ => none) 1 0 ⟨0, []⟩).1.length ≤ 1 := by
  refine ⟨rfl, ?_⟩
  exact ((readerFault_failFast [⟨true, some "boom"⟩]).2 "boom" rfl
    [⟨0, 0, 2, 2⟩] [] 0 (fun _ => none) 0 0 ⟨0, []⟩ (by decide)).1

/-! ## C5 and C7: planner intersection bookkeeping -/

/-- The sublist of the input file list that intersects `block`, in
input-list order. -/
def intersectFilter (block : BlockSpec)
    (imgInfoDict : String → ImageInfo) (filelist : List String) :
    List String :=
  filelist.filter (fun fn => blockIntersectsFile block (imgInfoDict fn))

/-- Python `filename in filesForBlock[block]` (false when the tile has
no entry). -/
def filesForBlockContains (d : FilesDict) (block : BlockSpec)
    (filename : String) : Bool :=
  match dictLookup d block with
  | some l => decide (filename ∈ l)
  | none => false

theorem dictLookup_dictAppend (d : FilesDict) (k : BlockSpec) (v : String) :
    ∀ (k2 : BlockSpec),
      dictLookup (dictAppend d k v) k2 =
        if k2 = k then some (((dictLookup d k).getD []) ++ [v])
        else dictLookup d k2 := by
  induction d with
  | nil =>
    intro k2
    by_cases h : k2 = k
    · subst h; simp [dictAppend, dictLookup]
    · have h3 : ¬ k = k2 := fun hh => h hh.symm
      simp [dictAppend, dictLookup, h, h3]
  | cons kv rest ih =>
    intro k2
    obtain ⟨k1, l⟩ := kv
    by_cases h1 : k1 = k
    · by_cases h2 : k2 = k1
      · have hk2k : k2 = k := h2.trans h1
        simp [dictAppend, dictLookup, h1, h2, hk2k]
      · have hk2k : ¬ k2 = k := fun hh => h2 (hh.trans h1.symm)
        have h2s : ¬ k1 = k2 := fun hh => h2 hh.symm
        have hkk2 : ¬ k = k2 := fun hh => hk2k hh.symm
        simp [dictAppend, dictLookup, h1, h2s, hk2k, hkk2]
    · by_cases h2 : k1 = k2
      · have hk2k : ¬ k2 = k := fun hh => h1 (h2.trans hh)
        simp [dictAppend, dictLookup, h1, h2, hk2k]
      · simp [dictAppend, dictLookup, h1, h2, ih k2]

theorem findInputsInner_dict (block : BlockSpec)
    (imgInfoDict : String → ImageInfo) :
    ∀ (fl : List String) (bwi : BlockSpecWithInputs) (d : FilesDict)
      (k2 : BlockSpec),
      dictLookup (findInputsInner block imgInfoDict fl bwi d).2 k2 =
        if k2 = block then
          (if intersectFilter block imgInfoDict fl = [] then dictLookup d k2
           else some ((dictLookup d block).getD [] ++
             intersectFilter block imgInfoDict fl))
        else dictLookup d k2 := by
  intro fl
  induction fl with
  | nil =>
    intro bwi d k2
    by_cases h : k2 = block <;> simp [findInputsInner, intersectFilter, h]
  | cons fn rest ih =>
    intro bwi d k2
    by_cases hint : blockIntersectsFile block (imgInfoDict fn) = true
    · have hfl : intersectFilter block imgInfoDict (fn :: rest) =
          fn :: intersectFilter block imgInfoDict rest := by
        simp [intersectFilter, List.filter_cons, hint]
      simp only [findInputsInner, hint, if_true]
      rw [ih _ (dictAppend d block fn) k2, hfl]
      by_cases h2 : k2 = block
      · rw [h2]
        rw [dictLookup_dictAppend d block fn block]
        by_cases h3 : intersectFilter block imgInfoDict rest = []
        · simp [h3]
        · simp [h3]
      · rw [if_neg h2, if_neg h2, dictLookup_dictAppend d block fn k2,
            if_neg h2]
    · have hint2 : blockIntersectsFile block (imgInfoDict fn) = false := by
        revert hint; cases blockIntersectsFile block (imgInfoDict fn) <;> simp
      have hfl : intersectFilter block imgInfoDict (fn :: rest) =
          intersectFilter block imgInfoDict rest := by
        simp [intersectFilter, List.filter_cons, hint2]
      simp only [findInputsInner, hint2, Bool.false_eq_true, if_false]
      rw [ih _ d k2, hfl]

theorem findInputsOuter_dict_nointersect (filelist : List String)
    (imgInfoDict : String → ImageInfo) (b2 : BlockSpec)
    (hno : intersectFilter b2 imgInfoDict filelist = []) :
    ∀ (blocks : List BlockSpec) (d : FilesDict),
      dictLookup (findInputsOuter filelist imgInfoDict blocks d).2 b2 =
        dictLookup d b2 := by
  intro blocks
  induction blocks with
  | nil => intro d; rfl
  | cons b rest ih =>
    intro d
    simp only [findInputsOuter]
    rw [ih]
    have h2 := findInputsInner_dict b imgInfoDict filelist ⟨b, [], []⟩ d b2
    by_cases hb : b2 = b
    · subst hb
      rw [h2, if_pos rfl, if_pos hno]
    · rw [h2, if_neg hb]

theorem findInputsOuter_dict_mem (filelist : List String)
    (imgInfoDict : String → ImageInfo) (b2 : BlockSpec) (fn : String) :
    ∀ (blocks : List BlockSpec) (d : FilesDict),
      (∃ l, dictLookup (findInputsOuter filelist imgInfoDict blocks d).2 b2 =
          some l ∧ fn ∈ l) ↔
        ((∃ l, dictLookup d b2 = some l ∧ fn ∈ l) ∨
          (b2 ∈ blocks ∧ fn ∈ intersectFilter b2 imgInfoDict filelist)) := by
  intro blocks
  induction blocks with
  | nil => intro d; simp [findInputsOuter]
  | cons b rest ih =>
    intro d
    simp only [findInputsOuter]
    rw [ih]
    have h2 := findInputsInner_dict b imgInfoDict filelist ⟨b, [], []⟩ d b2
    by_cases hb : b2 = b
    · subst hb
      rw [h2, if_pos rfl]
      by_cases hf : intersectFilter b2 imgInfoDict filelist = []
      · rw [if_pos hf]
        simp [List.mem_cons, hf]
      · rw [if_neg hf]
        rcases hdl : dictLookup d b2 with _ | l0 <;>
          simp [hdl, List.mem_append, List.mem_cons] <;> tauto
    · rw [h2, if_neg hb]
      simp only [List.mem_cons]
      constructor
      · rintro (h | h)
        · exact Or.inl h
        · exact Or.inr ⟨Or.inr h.1, h.2⟩
      · rintro (h | ⟨hbm, hfm⟩)
        · exact Or.inl h
        · rcases hbm with h1 | h1
          · exact absurd h1 hb
          · exact Or.inr ⟨h1, hfm⟩

theorem blockIntersectsFile_iff (block : BlockSpec) (imginfo : ImageInfo) :
    blockIntersectsFile block imginfo = true ↔
      (match transformToFilePixelCoords block imginfo with
       | (fileLeft, fileTop, fileRight, fileBottom) =>
         fileRight + 1 ≥ 0 ∧ fileBottom + 1 ≥ 0 ∧
         fileLeft ≤ imginfo.ncols ∧ fileTop ≤ imginfo.nrows) := by
  simp [blockIntersectsFile, transformToFilePixelCoords,
    Bool.and_eq_true, decide_eq_true_eq]
  tauto

/-- C5.  For every output tile in the tile list and every input file
in the file list, the planner marks the input as intersecting the tile
(records it in filesForBlock[tile]) exactly when the tile's rectangle
projected into the input's pixel coordinates (fileLeft, fileTop,
fileRight, fileBottom) satisfies fileRight + 1 >= 0 and
fileBottom + 1 >= 0 and fileLeft <= ncols and fileTop <= nrows. -/
theorem findInputsPerBlock_intersection (blockList : List BlockSpec)
    (filelist : List String) (imgInfoDict : String → ImageInfo)
    (block : BlockSpec) (filename : String)
    (hb : block ∈ blockList) (hf : filename ∈ filelist) :
    filesForBlockContains
        (findInputsPerBlock blockList filelist imgInfoDict).2 block
        filename = true ↔
      (match transformToFilePixelCoords block (imgInfoDict filename) with
       | (fileLeft, fileTop, fileRight, fileBottom) =>
         fileRight + 1 ≥ 0 ∧ fileBottom + 1 ≥ 0 ∧
         fileLeft ≤ (imgInfoDict filename).ncols ∧
         fileTop ≤ (imgInfoDict filename).nrows) := by
  have hmem : filesForBlockContains
      (findInputsPerBlock blockList filelist imgInfoDict).2 block
      filename = true ↔
      ∃ l, dictLookup (findInputsPerBlock blockList filelist
        imgInfoDict).2 block = some l ∧ filename ∈ l := by
    unfold filesForBlockContains
    rcases hdl : dictLookup (findInputsPerBlock blockList filelist
      imgInfoDict).2 block with _ | l <;> simp [hdl]
  rw [hmem]
  unfold findInputsPerBlock
  rw [findInputsOuter_dict_mem filelist imgInfoDict block filename
    blockList []]
  constructor
  · rintro (⟨l, hl, _⟩ | ⟨_, hmem2⟩)
    · exact absurd hl (by simp [dictLookup])
    · simp only [intersectFilter] at hmem2
      exact (blockIntersectsFile_iff _ _).mp (List.mem_filter.mp hmem2).2
  · intro hint
    refine Or.inr ⟨hb, ?_⟩
    simp only [intersectFilter]
    exact List.mem_filter.mpr ⟨hf, (blockIntersectsFile_iff _ _).mpr hint⟩

/-- Witness for C5 at a concrete input: a 2x2 tile at the origin and
one co-located 4x4 input file. -/
theorem findInputsPerBlock_intersection_witness :
    (⟨0, 0, 2, 2⟩ : BlockSpec) ∈ [(⟨0, 0, 2, 2⟩ : BlockSpec)] ∧
    "f" ∈ ["f"] ∧
    filesForBlockContains
      (findInputsPerBlock [⟨0, 0, 2, 2⟩] ["f"]
        (fun _ => ⟨0, 0, 4, 4⟩)).2 ⟨0, 0, 2, 2⟩ "f" = true := by
  refine ⟨by decide, by decide, ?_⟩
  exact (findInputsPerBlock_intersection [⟨0, 0, 2, 2⟩] ["f"]
    (fun _ => ⟨0, 0, 4, 4⟩) ⟨0, 0, 2, 2⟩ "f" (by decide) (by decide)).mpr
    (by decide)

/-- C7.  An output tile that intersects no input file is absent from
filesForBlock while remaining in the tile list, and the writer
iteration that reaches it emits a full (ysize, xsize) array filled
with the output null value, written at the tile's (left, top), and
advances to the next tile. -/
theorem nonIntersectingTile_written_null (blockList : List BlockSpec)
    (filelist : List String) (imgInfoDict : String → ImageInfo)
    (block : BlockSpec) (nullVal : Int)
    (qitem : Option (BlockReadingSpec × NpArray))
    (workerList : List Worker) (st : WState)
    (hb : block ∈ blockList)
    (hno : ∀ fn ∈ filelist,
      blockIntersectsFile block (imgInfoDict fn) = false)
    (hi : blockList.getD st.i defaultBlock = block)
    (hok : checkReaderExceptions workerList = .ok ()) :
    dictLookup (findInputsPerBlock blockList filelist imgInfoDict).2
      block = none ∧
    writerIteration blockList
        (findInputsPerBlock blockList filelist imgInfoDict).2 nullVal
        qitem workerList st =
      ([⟨⟨block.ysize.toNat, block.xsize.toNat, fun _ _ => nullVal⟩,
          block.left, block.top⟩],
        .ok ⟨st.i + 1, drainOneItem st.cache qitem⟩) := by
  have habs : dictLookup (findInputsPerBlock blockList filelist
      imgInfoDict).2 block = none := by
    unfold findInputsPerBlock
    rw [findInputsOuter_dict_nointersect filelist imgInfoDict block
      (by simp only [intersectFilter, List.filter_eq_nil]
          intro fn hfn
          simp [hno fn hfn]) blockList []]
    rfl
  refine ⟨habs, ?_⟩
  unfold writerIteration writerIterationCore
  rw [hi, habs, hok]
  simp only [writeNullTile]
  rw [hi]

/-- Witness for C7 at a concrete input: a tile far outside the single
input file; the iteration writes the all-null tile and advances. -/
theorem nonIntersectingTile_written_null_witness :
    (⟨100, 100, 2, 2⟩ : BlockSpec) ∈ [(⟨100, 100, 2, 2⟩ : BlockSpec)] ∧
    dictLookup (findInputsPerBlock [⟨100, 100, 2, 2⟩] ["f"]
      (fun _ => ⟨0, 0, 4, 4⟩)).2 ⟨100, 100, 2, 2⟩ = none := by
  refine ⟨by decide, ?_⟩
  exact (nonIntersectingTile_written_null [⟨100, 100, 2, 2⟩] ["f"]
    (fun _ => ⟨0, 0, 4, 4⟩) ⟨100, 100, 2, 2⟩ 0 none [] ⟨0, []⟩
    (by decide)
    (by intro fn _
        show blockIntersectsFile ⟨100, 100, 2, 2⟩ ⟨0, 0, 4, 4⟩ = false
        decide)
    (by decide) rfl).1

/-! ## C8: getInputsForBlock assembly -/

/-- Placeholder array for the (never taken) missing-key branch of a
cache access. -/
def defaultNpArray : NpArray := ⟨0, 0, fun _ _ => 0⟩

/-- The `(blockSpec, arr)` pair stored in the block cache for
(filename, outblock) (mosaic.py line 469). -/
def cachedEntry (cache : BlockCache) (outblock : BlockSpec)
    (filename : String) : BlockSpec × NpArray :=
  (cacheLookup cache filename outblock).getD (defaultBlock, defaultNpArray)

/-- The cached array for (filename, outblock). -/
def arrOf (cache : BlockCache) (outblock : BlockSpec)
    (filename : String) : NpArray :=
  (cachedEntry cache outblock filename).2

theorem arrOf_eq (cache : BlockCache) (outblock : BlockSpec)
    (filename : String) (bs : BlockSpec) (arr : NpArray)
    (hlk : cacheLookup cache filename outblock = some (bs, arr)) :
    arrOf cache outblock filename = arr := by
  simp [arrOf, cachedEntry, hlk]

theorem getInputsLoop_all_present (cache : BlockCache) (ob : BlockSpec)
    (full : List String) (s : Nat × Nat) :
    ∀ (files : List String),
      (∀ fn ∈ files, (cacheLookup cache fn ob).isSome = true ∧
        (arrOf cache ob fn).shape = s) →
      (getInputsLoop cache ob full files none =
        .ok (some (files.map (arrOf cache ob))) ∧
       getInputsLoop cache ob full files (some s) =
        .ok (some (files.map (arrOf cache ob)))) := by
  intro files
  induction files with
  | nil => intro _; exact ⟨rfl, rfl⟩
  | cons fn rest ih =>
    intro h
    obtain ⟨hsome, hshape⟩ := h fn (List.mem_cons_self _ _)
    have hrest := ih (fun fn1 h1 => h fn1 (List.mem_cons_of_mem _ h1))
    rcases hlk : cacheLookup cache fn ob with _ | ⟨bs, arr⟩
    · rw [hlk] at hsome; exact absurd hsome (by simp)
    · have harr : arr = arrOf cache ob fn := (arrOf_eq _ _ _ _ _ hlk).symm
      have hshape2 : arr.shape = s := by rw [harr]; exact hshape
      constructor
      · simp only [getInputsLoop, hlk]
        rw [hshape2, hrest.2, List.map_cons, ← harr]
        rfl
      · simp only [getInputsLoop, hlk]
        rw [if_neg (by rw [hshape2]; simp), hrest.2, List.map_cons, ← harr]
        rfl

theorem getInputsLoop_missing (cache : BlockCache) (ob : BlockSpec)
    (full : List String) (s : Nat × Nat) (fn0 : String)
    (rest : List String) (h0 : cacheLookup cache fn0 ob = none) :
    ∀ (pre : List String),
      (∀ fn ∈ pre, (cacheLookup cache fn ob).isSome = true ∧
        (arrOf cache ob fn).shape = s) →
      (getInputsLoop cache ob full (pre ++ fn0 :: rest) none = .ok none ∧
       getInputsLoop cache ob full (pre ++ fn0 :: rest) (some s) =
        .ok none) := by
  intro pre
  induction pre with
  | nil =>
    intro _
    constructor <;> simp only [List.nil_append, getInputsLoop, h0]
  | cons p pre1 ih =>
    intro h
    obtain ⟨hsome, hshape⟩ := h p (List.mem_cons_self _ _)
    have hrest := ih (fun fn1 h1 => h fn1 (List.mem_cons_of_mem _ h1))
    rcases hlk : cacheLookup cache p ob with _ | ⟨bs, arr⟩
    · rw [hlk] at hsome; exact absurd hsome (by simp)
    · have harr : arr = arrOf cache ob p := (arrOf_eq _ _ _ _ _ hlk).symm
      have hshape2 : arr.shape = s := by rw [harr]; exact hshape
      constructor
      · rw [List.cons_append]
        simp only [getInputsLoop, hlk]
        rw [hshape2, hrest.2]
        rfl
      · rw [List.cons_append]
        simp only [getInputsLoop, hlk]
        rw [if_neg (by rw [hshape2]; simp), hrest.2]
        rfl

theorem getInputsLoop_mismatch (cache : BlockCache) (ob : BlockSpec)
    (full : List String) (s : Nat × Nat) (bad : String)
    (rest : List String)
    (hbad : (cacheLookup cache bad ob).isSome = true)
    (hbs : (arrOf cache ob bad).shape ≠ s) :
    ∀ (pre : List String),
      (∀ fn ∈ pre, (cacheLookup cache fn ob).isSome = true ∧
        (arrOf cache ob fn).shape = s) →
      getInputsLoop cache ob full (pre ++ bad :: rest) (some s) =
        .error (mismatchMsg (cachedEntry cache ob bad).1
          (arrOf cache ob bad).shape s full) := by
  intro pre
  induction pre with
  | nil =>
    intro _
    rcases hlk : cacheLookup cache bad ob with _ | ⟨bs, arr⟩
    · rw [hlk] at hbad; exact absurd hbad (by simp)
    · have harr : arr = arrOf cache ob bad := (arrOf_eq _ _ _ _ _ hlk).symm
      have hbs2 : arr.shape ≠ s := by rw [harr]; exact hbs
      simp only [List.nil_append, getInputsLoop, hlk]
      rw [if_pos (by simpa using hbs2)]
      have hbseq : bs = (cachedEntry cache ob bad).1 := by
        simp [cachedEntry, hlk]
      rw [hbseq, harr]
  | cons p pre1 ih =>
    intro h
    obtain ⟨hsome, hshape⟩ := h p (List.mem_cons_self _ _)
    have hrest := ih (fun fn1 h1 => h fn1 (List.mem_cons_of_mem _ h1))
    rcases hlk : cacheLookup cache p ob with _ | ⟨bs, arr⟩
    · rw [hlk] at hsome; exact absurd hsome (by simp)
    · have harr : arr = arrOf cache ob p := (arrOf_eq _ _ _ _ _ hlk).symm
      have hshape2 : arr.shape = s := by rw [harr]; exact hshape
      rw [List.cons_append]
      simp only [getInputsLoop, hlk]
      rw [if_neg (by rw [hshape2]; simp), hrest]
      rfl

/-- C8 amended.  getInputsForBlock scans FilesForBlock order and stops
at the first missing input: if all inputs are cached with one shape it
returns them in order; if the scan hits a missing input first it
returns None — even when cached arrays on both sides of the missing
one have different shapes; if, before any missing input, a cached
array's shape differs from the first cached array's shape, it raises a
fatal error whose message names the offending tile and both shapes. -/
theorem getInputsForBlock_characterization (cache : BlockCache)
    (outblock : BlockSpec) (ffb : FilesDict) (files : List String)
    (hlk : dictLookup ffb outblock = some files) :
    (∀ s : Nat × Nat,
      (∀ fn ∈ files, (cacheLookup cache fn outblock).isSome = true ∧
        (arrOf cache outblock fn).shape = s) →
      getInputsForBlock cache outblock ffb =
        .ok (some (files.map (arrOf cache outblock)))) ∧
    (∀ (s : Nat × Nat) (pre : List String) (fn0 : String)
        (rest : List String),
      files = pre ++ fn0 :: rest →
      (∀ fn ∈ pre, (cacheLookup cache fn outblock).isSome = true ∧
        (arrOf cache outblock fn).shape = s) →
      cacheLookup cache fn0 outblock = none →
      getInputsForBlock cache outblock ffb = .ok none) ∧
    (∀ (first : String) (mid : List String) (bad : String)
        (rest : List String),
      files = first :: (mid ++ bad :: rest) →
      (cacheLookup cache first outblock).isSome = true →
      (∀ fn ∈ mid, (cacheLookup cache fn outblock).isSome = true ∧
        (arrOf cache outblock fn).shape =
          (arrOf cache outblock first).shape) →
      (cacheLookup cache bad outblock).isSome = true →
      (arrOf cache outblock bad).shape ≠
        (arrOf cache outblock first).shape →
      getInputsForBlock cache outblock ffb =
        .error (mismatchMsg (cachedEntry cache outblock bad).1
          (arrOf cache outblock bad).shape
          (arrOf cache outblock first).shape files)) := by
  have hfl : (dictLookup ffb outblock).getD [] = files := by rw [hlk]; rfl
  refine ⟨?_, ?_, ?_⟩
  · intro s h
    unfold getInputsForBlock
    rw [hfl]
    exact (getInputsLoop_all_present cache outblock files s files h).1
  · intro s pre fn0 rest hsplit h h0
    unfold getInputsForBlock
    rw [hfl, hsplit]
    show getInputsLoop cache outblock (pre ++ fn0 :: rest)
      (pre ++ fn0 :: rest) none = .ok none
    exact (getInputsLoop_missing cache outblock (pre ++ fn0 :: rest) s
      fn0 rest h0 pre h).1
  · intro first mid bad rest hsplit hfirst hmid hbad hbs
    unfold getInputsForBlock
    rw [hfl, hsplit]
    rcases hlk1 : cacheLookup cache first outblock with _ | ⟨bs1, arr1⟩
    · rw [hlk1] at hfirst; exact absurd hfirst (by simp)
    · have harr1 : arr1 = arrOf cache outblock first :=
        (arrOf_eq _ _ _ _ _ hlk1).symm
      simp only [getInputsLoop, hlk1]
      rw [harr1]
      rw [getInputsLoop_mismatch cache outblock
        (first :: (mid ++ bad :: rest)) (arrOf cache outblock first).shape
        bad rest hbad hbs mid hmid]
      rfl

/-- A 2x2 output tile used in the concrete C8 scenarios. -/
def exampleTile : BlockSpec := ⟨0, 0, 2, 2⟩

/-- Cache holding arrays of different shapes for files a and c, with
file b missing. -/
def exampleGapCache : BlockCache :=
  [(("a", exampleTile), (exampleTile, ⟨1, 1, fun _ _ => 0⟩)),
   (("c", exampleTile), (exampleTile, ⟨2, 2, fun _ _ => 0⟩))]

/-- filesForBlock mapping the tile to files a, b, c. -/
def exampleGapDict : FilesDict := [(exampleTile, ["a", "b", "c"])]

/-- Counterexample to C8.  Two cached arrays for the tile have
different shapes (1,1) and (2,2), yet because the file between them is
missing from the cache, getInputsForBlock returns None instead of
raising the shape-mismatch error the claim requires. -/
theorem getInputsForBlock_gap_counterexample :
    (cacheLookup exampleGapCache "a" exampleTile).map
      (fun v => v.2.shape) = some (1, 1) ∧
    (cacheLookup exampleGapCache "c" exampleTile).map
      (fun v => v.2.shape) = some (2, 2) ∧
    cacheLookup exampleGapCache "b" exampleTile = none ∧
    dictLookup exampleGapDict exampleTile = some ["a", "b", "c"] ∧
    ((1, 1) : Nat × Nat) ≠ (2, 2) ∧
    getInputsForBlock exampleGapCache exampleTile exampleGapDict =
      .ok none := by
  exact ⟨rfl, rfl, rfl, rfl, by decide, rfl⟩

/-- Cache holding equal-shaped arrays for both expected files. -/
def exampleFullCache : BlockCache :=
  [(("a", exampleTile), (exampleTile, ⟨2, 2, fun _ _ => 0⟩)),
   (("b", exampleTile), (exampleTile, ⟨2, 2, fun _ _ => 5⟩))]

/-- filesForBlock mapping the tile to files a, b. -/
def exampleFullDict : FilesDict := [(exampleTile, ["a", "b"])]

/-- Witness for the amended C8 at a concrete input: both inputs cached
with equal shapes, so assembly returns them in order. -/
theorem getInputsForBlock_characterization_witness :
    dictLookup exampleFullDict exampleTile = some ["a", "b"] ∧
    getInputsForBlock exampleFullCache exampleTile exampleFullDict =
      .ok (some (["a", "b"].map (arrOf exampleFullCache exampleTile))) := by
  refine ⟨rfl, ?_⟩
  refine (getInputsForBlock_characterization exampleFullCache exampleTile
    exampleFullDict ["a", "b"] rfl).1 (2, 2) ?_
  intro fn hfn
  rcases List.mem_cons.mp hfn with h | h
  · subst h; exact ⟨rfl, rfl⟩
  · rcases List.mem_cons.mp h with h1 | h1
    · subst h1; exact ⟨rfl, rfl⟩
    · exact absurd h1 (by simp)

/-! ## C3: reader output shape and padding -/

/-- The paste region of readFunc (mosaic.py line 214): row indices in
[rowoffset, rowoffset + ysize1) and column indices in
[coloffset, coloffset + xsize1), with the offsets and clipped sizes of
mosaic.py lines 200-213. -/
def pasteRegion (inblock : BlockSpec) (f : FileRaster) (r c : Nat) :
    Bool :=
  decide (max 0 (-inblock.top) ≤ (r : Int)) &&
  decide ((r : Int) < max 0 (-inblock.top) +
    (min (inblock.top + inblock.ysize) f.rasterYSize -
      max inblock.top 0)) &&
  decide (max 0 (-inblock.left) ≤ (c : Int)) &&
  decide ((c : Int) < max 0 (-inblock.left) +
    (min (inblock.left + inblock.xsize) f.rasterXSize -
      max inblock.left 0))

theorem readFuncOneBlock_shape (bi : BlockReadingSpec) (f : FileRaster)
    (nv : Int) :
    (readFuncOneBlock bi f nv).rows = bi.inblock.ysize.toNat ∧
    (readFuncOneBlock bi f nv).cols = bi.inblock.xsize.toNat :=
  ⟨rfl, rfl⟩

theorem inblockFor_sizes (block : BlockSpec) (imginfo : ImageInfo) :
    (inblockFor block imginfo).xsize = block.xsize ∧
    (inblockFor block imginfo).ysize = block.ysize := by
  simp only [inblockFor, transformToFilePixelCoords]
  constructor <;> ring

theorem findInputsInner_bwi (block : BlockSpec)
    (imgInfoDict : String → ImageInfo) :
    ∀ (fl : List String) (bwi : BlockSpecWithInputs) (d : FilesDict),
      (findInputsInner block imgInfoDict fl bwi d).1.outblock =
        bwi.outblock ∧
      (∀ ib ∈ (findInputsInner block imgInfoDict fl bwi d).1.inblocklist,
        ib ∈ bwi.inblocklist ∨
          (ib.xsize = block.xsize ∧ ib.ysize = block.ysize)) := by
  intro fl
  induction fl with
  | nil => intro bwi d; exact ⟨rfl, fun ib hib => Or.inl hib⟩
  | cons fn rest ih =>
    intro bwi d
    by_cases hint : blockIntersectsFile block (imgInfoDict fn) = true
    · simp only [findInputsInner, hint, if_true]
      obtain ⟨ho, hin⟩ := ih ⟨bwi.outblock, bwi.infilelist ++ [fn],
        bwi.inblocklist ++ [inblockFor block (imgInfoDict fn)]⟩
        (dictAppend d block fn)
      refine ⟨ho, fun ib hib => ?_⟩
      rcases hin ib hib with h1 | h1
      · rcases List.mem_append.mp h1 with h2 | h2
        · exact Or.inl h2
        · have : ib = inblockFor block (imgInfoDict fn) := by
            simpa using h2
          rw [this]
          exact Or.inr (inblockFor_sizes block (imgInfoDict fn))
      · exact Or.inr h1
    · have hint2 : blockIntersectsFile block (imgInfoDict fn) = false := by
        revert hint; cases blockIntersectsFile block (imgInfoDict fn) <;>
          simp
      simp only [findInputsInner, hint2, Bool.false_eq_true, if_false]
      exact ih bwi d

theorem findInputsOuter_bwi (filelist : List String)
    (imgInfoDict : String → ImageInfo) :
    ∀ (blocks : List BlockSpec) (d : FilesDict)
      (bwi : BlockSpecWithInputs),
      bwi ∈ (findInputsOuter filelist imgInfoDict blocks d).1 →
      ∀ ib ∈ bwi.inblocklist,
        ib.xsize = bwi.outblock.xsize ∧ ib.ysize = bwi.outblock.ysize := by
  intro blocks
  induction blocks with
  | nil => intro d bwi hbwi; exact absurd hbwi (by simp [findInputsOuter])
  | cons b rest ih =>
    intro d bwi hbwi
    simp only [findInputsOuter] at hbwi
    obtain ⟨ho, hin⟩ := findInputsInner_bwi b imgInfoDict filelist
      ⟨b, [], []⟩ d
    by_cases hcond : (findInputsInner b imgInfoDict filelist
        ⟨b, [], []⟩ d).1.infilelist.length > 0
    · rw [if_pos hcond] at hbwi
      rcases List.mem_cons.mp hbwi with h1 | h1
      · intro ib hib
        rw [h1] at hib ⊢
        rw [ho]
        rcases hin ib hib with h2 | h2
        · exact absurd h2 (by simp)
        · exact h2
      · exact ih _ bwi h1
    · rw [if_neg hcond] at hbwi
      exact ih _ bwi hbwi

theorem makeBlockReadingList_mem :
    ∀ (L : List BlockSpecWithInputs) (bi : BlockReadingSpec),
      bi ∈ makeBlockReadingList L →
      ∃ bwi ∈ L, bi.outblock = bwi.outblock ∧
        bi.inblock ∈ bwi.inblocklist := by
  intro L
  induction L with
  | nil => intro bi hbi; exact absurd hbi (by simp [makeBlockReadingList])
  | cons bwi rest ih =>
    intro bi hbi
    simp only [makeBlockReadingList] at hbi
    rcases List.mem_append.mp hbi with h1 | h1
    · obtain ⟨p, hp, hbi2⟩ := List.mem_map.mp h1
      refine ⟨bwi, List.mem_cons_self _ _, ?_, ?_⟩
      · rw [← hbi2]
      · rw [← hbi2]
        exact (List.of_mem_zip hp).2
    · obtain ⟨bwi2, hbwi2, h2⟩ := ih bi h1
      exact ⟨bwi2, List.mem_cons_of_mem _ hbwi2, h2⟩

theorem plannerInblock_sizes (blockList : List BlockSpec)
    (filelist : List String) (imgInfoDict : String → ImageInfo)
    (bi : BlockReadingSpec)
    (hmem : bi ∈ makeBlockReadingList
      (findInputsPerBlock blockList filelist imgInfoDict).1) :
    bi.inblock.xsize = bi.outblock.xsize ∧
    bi.inblock.ysize = bi.outblock.ysize := by
  obtain ⟨bwi, hbwi, ho, hin⟩ := makeBlockReadingList_mem _ bi hmem
  obtain ⟨hx, hy⟩ := findInputsOuter_bwi filelist imgInfoDict blockList []
    bwi hbwi bi.inblock hin
  rw [ho]
  exact ⟨hx, hy⟩

/-- C3.  For every BlockReadingSpec produced by the planner, the array
readFunc enqueues for it has exactly the (ysize, xsize) shape of the
corresponding output tile, holds the output null value outside the
clipped paste region, holds the clipped input data pasted at offsets
(max(0,-top), max(0,-left)) inside it, and consequently any two
planner reading specs for the same output tile yield arrays of one
shape. -/
theorem readFunc_block_shape (blockList : List BlockSpec)
    (filelist : List String) (imgInfoDict : String → ImageInfo)
    (blockInfo : BlockReadingSpec) (f : FileRaster) (outNullVal : Int)
    (hmem : blockInfo ∈ makeBlockReadingList
      (findInputsPerBlock blockList filelist imgInfoDict).1) :
    (readFuncOneBlock blockInfo f outNullVal).rows =
      blockInfo.outblock.ysize.toNat ∧
    (readFuncOneBlock blockInfo f outNullVal).cols =
      blockInfo.outblock.xsize.toNat ∧
    (∀ r c : Nat, pasteRegion blockInfo.inblock f r c = false →
      (readFuncOneBlock blockInfo f outNullVal).data r c = outNullVal) ∧
    (∀ r c : Nat, pasteRegion blockInfo.inblock f r c = true →
      (readFuncOneBlock blockInfo f outNullVal).data r c =
        f.pixel (max blockInfo.inblock.top 0 +
            ((r : Int) - max 0 (-blockInfo.inblock.top)))
          (max blockInfo.inblock.left 0 +
            ((c : Int) - max 0 (-blockInfo.inblock.left)))) ∧
    (∀ blockInfo2 ∈ makeBlockReadingList
        (findInputsPerBlock blockList filelist imgInfoDict).1,
      blockInfo2.outblock = blockInfo.outblock →
      ∀ (f2 : FileRaster) (nv2 : Int),
        (readFuncOneBlock blockInfo2 f2 nv2).rows =
          (readFuncOneBlock blockInfo f outNullVal).rows ∧
        (readFuncOneBlock blockInfo2 f2 nv2).cols =
          (readFuncOneBlock blockInfo f outNullVal).cols) := by
  obtain ⟨hx, hy⟩ := plannerInblock_sizes blockList filelist imgInfoDict
    blockInfo hmem
  have hrows : (readFuncOneBlock blockInfo f outNullVal).rows =
      blockInfo.outblock.ysize.toNat := by
    rw [(readFuncOneBlock_shape blockInfo f outNullVal).1, hy]
  have hcols : (readFuncOneBlock blockInfo f outNullVal).cols =
      blockInfo.outblock.xsize.toNat := by
    rw [(readFuncOneBlock_shape blockInfo f outNullVal).2, hx]
  refine ⟨hrows, hcols, ?_, ?_, ?_⟩
  · intro r c hreg
    have hcond : ¬(max 0 (-blockInfo.inblock.top) ≤ (r : Int) ∧
        (r : Int) < max 0 (-blockInfo.inblock.top) +
          (min (blockInfo.inblock.top + blockInfo.inblock.ysize)
            f.rasterYSize - max blockInfo.inblock.top 0) ∧
        max 0 (-blockInfo.inblock.left) ≤ (c : Int) ∧
        (c : Int) < max 0 (-blockInfo.inblock.left) +
          (min (blockInfo.inblock.left + blockInfo.inblock.xsize)
            f.rasterXSize - max blockInfo.inblock.left 0)) := by
      intro hc
      rw [show pasteRegion blockInfo.inblock f r c = true by
        simp [pasteRegion, hc.1, hc.2.1, hc.2.2.1, hc.2.2.2]] at hreg
      exact absurd hreg (by simp)
    show (if _ ∧ _ ∧ _ ∧ _ then _ else _) = outNullVal
    rw [if_neg hcond]
  · intro r c hreg
    have hc : max 0 (-blockInfo.inblock.top) ≤ (r : Int) ∧
        (r : Int) < max 0 (-blockInfo.inblock.top) +
          (min (blockInfo.inblock.top + blockInfo.inblock.ysize)
            f.rasterYSize - max blockInfo.inblock.top 0) ∧
        max 0 (-blockInfo.inblock.left) ≤ (c : Int) ∧
        (c : Int) < max 0 (-blockInfo.inblock.left) +
          (min (blockInfo.inblock.left + blockInfo.inblock.xsize)
            f.rasterXSize - max blockInfo.inblock.left 0) := by
      have := hreg
      simp only [pasteRegion, Bool.and_eq_true, decide_eq_true_eq] at this
      exact ⟨this.1.1.1, this.1.1.2, this.1.2, this.2⟩
    show (if _ ∧ _ ∧ _ ∧ _ then _ else _) = _
    rw [if_pos hc]
    dsimp only
    rw [Int.toNat_of_nonneg (by omega), Int.toNat_of_nonneg (by omega)]
  · intro blockInfo2 hmem2 ho2 f2 nv2
    obtain ⟨hx2, hy2⟩ := plannerInblock_sizes blockList filelist
      imgInfoDict blockInfo2 hmem2
    constructor
    · rw [(readFuncOneBlock_shape blockInfo2 f2 nv2).1, hy2, ho2, hrows]
    · rw [(readFuncOneBlock_shape blockInfo2 f2 nv2).2, hx2, ho2, hcols]

/-- Witness for C3 at a concrete input: a 4x3 tile whose inblock
starts one pixel left of the input (left = -1), so the first padded
column is null and the paste starts at column offset 1. -/
theorem readFunc_block_shape_witness :
    (readFuncOneBlock ⟨⟨0, 0, 4, 3⟩, "f", ⟨0, -1, 4, 3⟩⟩
      ⟨10, 10, fun r c => r * 100 + c⟩ 7).rows = 3 ∧
    (readFuncOneBlock ⟨⟨0, 0, 4, 3⟩, "f", ⟨0, -1, 4, 3⟩⟩
      ⟨10, 10, fun r c => r * 100 + c⟩ 7).data 0 0 = 7 ∧
    (readFuncOneBlock ⟨⟨0, 0, 4, 3⟩, "f", ⟨0, -1, 4, 3⟩⟩
      ⟨10, 10, fun r c => r * 100 + c⟩ 7).data 0 1 = 0 := by
  have h := readFunc_block_shape [⟨0, 0, 4, 3⟩] ["f"]
    (fun _ => ⟨1, 0, 10, 10⟩) ⟨⟨0, 0, 4, 3⟩, "f", ⟨0, -1, 4, 3⟩⟩
    ⟨10, 10, fun r c => r * 100 + c⟩ 7 (by decide)
  refine ⟨h.1, ?_, ?_⟩
  · have h3 := h.2.2.1 0 0 (by decide)
    simpa using h3
  · have h4 := h.2.2.2.1 0 1 (by decide)
    simpa using h4

/-! ## C9: tiling of the output grid -/

theorem makeBlockRow_basics (ncols B top ys : Nat) (hB : 1 ≤ B) :
    ∀ (n left : Nat), ncols - left ≤ n →
      ∀ b ∈ makeBlockRow ncols B top ys left,
        b.top = (top : Int) ∧ b.ysize = (ys : Int) ∧
        (left : Int) ≤ b.left ∧ b.left + b.xsize ≤ (ncols : Int) ∧
        1 ≤ b.xsize := by
  intro n
  induction n with
  | zero =>
    intro left hle b hb
    rw [makeBlockRow, dif_neg (by omega)] at hb
    exact absurd hb (by simp)
  | succ n ih =>
    intro left hle b hb
    by_cases hl : left < ncols
    · rw [makeBlockRow, dif_pos hl] at hb
      have hx1 : 1 ≤ min B (ncols - left) := by omega
      have hmax : max 1 (min B (ncols - left)) = min B (ncols - left) := by
        omega
      rcases List.mem_cons.mp hb with h1 | h1
      · rw [h1]
        refine ⟨rfl, rfl, le_refl _, ?_, ?_⟩
        · show (left : Int) + (min B (ncols - left) : Nat) ≤ (ncols : Int)
          push_cast
          omega
        · show (1 : Int) ≤ (min B (ncols - left) : Nat)
          push_cast
          omega
      · have hrec := ih (left + max 1 (min B (ncols - left)))
          (by omega) b h1
        refine ⟨hrec.1, hrec.2.1, ?_, hrec.2.2.2.1, hrec.2.2.2.2⟩
        have hstep : ((left : Int)) ≤
            ((left + max 1 (min B (ncols - left)) : Nat) : Int) := by
          push_cast
          omega
        exact le_trans hstep hrec.2.2.1
    · rw [makeBlockRow, dif_neg hl] at hb
      exact absurd hb (by simp)

theorem makeBlockRow_cover (ncols B top ys : Nat) (hB : 1 ≤ B) :
    ∀ (n left c : Nat), ncols - left ≤ n → left ≤ c → c < ncols →
      ∃ b ∈ makeBlockRow ncols B top ys left,
        b.left ≤ (c : Int) ∧ (c : Int) < b.left + b.xsize := by
  intro n
  induction n with
  | zero => intro left c hle hlc hc; omega
  | succ n ih =>
    intro left c hle hlc hc
    have hl : left < ncols := by omega
    have hx1 : 1 ≤ min B (ncols - left) := by omega
    have hmax : max 1 (min B (ncols - left)) = min B (ncols - left) := by
      omega
    rw [makeBlockRow, dif_pos hl]
    by_cases hcin : c < left + min B (ncols - left)
    · refine ⟨BlockSpec.mk (top : Nat) (left : Nat)
        (((min B (ncols - left) : Nat)) : Int) (ys : Nat),
        List.mem_cons_self _ _, ?_, ?_⟩
      · show (left : Int) ≤ (c : Int)
        push_cast
        omega
      · show (c : Int) < (left : Int) + ((min B (ncols - left) : Nat) : Int)
        push_cast
        omega
    · obtain ⟨b, hb, hcov⟩ := ih (left + max 1 (min B (ncols - left))) c
        (by omega) (by omega) hc
      exact ⟨b, List.mem_cons_of_mem _ hb, hcov⟩

theorem makeBlockRow_unique (ncols B top ys : Nat) (hB : 1 ≤ B) :
    ∀ (n left : Nat) (c : Nat) (b1 b2 : BlockSpec), ncols - left ≤ n →
      b1 ∈ makeBlockRow ncols B top ys left →
      b2 ∈ makeBlockRow ncols B top ys left →
      b1.left ≤ (c : Int) → (c : Int) < b1.left + b1.xsize →
      b2.left ≤ (c : Int) → (c : Int) < b2.left + b2.xsize → b1 = b2 := by
  intro n
  induction n with
  | zero =>
    intro left c b1 b2 hle hb1 hb2 _ _ _ _
    rw [makeBlockRow, dif_neg (by omega)] at hb1
    exact absurd hb1 (by simp)
  | succ n ih =>
    intro left c b1 b2 hle hb1 hb2 h1a h1b h2a h2b
    by_cases hl : left < ncols
    · rw [makeBlockRow, dif_pos hl] at hb1 hb2
      have hx1 : 1 ≤ min B (ncols - left) := by omega
      have hmax : max 1 (min B (ncols - left)) = min B (ncols - left) := by
        omega
      have htail : ∀ b ∈ makeBlockRow ncols B top ys
          (left + max 1 (min B (ncols - left))),
          ((left + min B (ncols - left) : Nat) : Int) ≤ b.left := by
        intro b hb
        have := (makeBlockRow_basics ncols B top ys hB n
          (left + max 1 (min B (ncols - left))) (by omega) b hb).2.2.1
        calc ((left + min B (ncols - left) : Nat) : Int) =
            ((left + max 1 (min B (ncols - left)) : Nat) : Int) := by
              rw [hmax]
          _ ≤ b.left := this
      rcases List.mem_cons.mp hb1 with hc1 | hc1 <;>
        rcases List.mem_cons.mp hb2 with hc2 | hc2
      · rw [hc1, hc2]
      · exfalso
        have hbl := htail b2 hc2
        rw [hc1] at h1b
        have : (c : Int) < ((left + min B (ncols - left) : Nat) : Int) := by
          push_cast at h1b ⊢
          omega
        omega
      · exfalso
        have hbl := htail b1 hc1
        rw [hc2] at h2b
        have : (c : Int) < ((left + min B (ncols - left) : Nat) : Int) := by
          push_cast at h2b ⊢
          omega
        omega
      · exact ih (left + max 1 (min B (ncols - left))) c b1 b2 (by omega)
          hc1 hc2 h1a h1b h2a h2b
    · rw [makeBlockRow, dif_neg hl] at hb1
      exact absurd hb1 (by simp)

theorem makeBlockRows_basics (nrows ncols B : Nat) (hB : 1 ≤ B) :
    ∀ (m top : Nat), nrows - top ≤ m →
      ∀ b ∈ makeBlockRows nrows ncols B top,
        (top : Int) ≤ b.top ∧ b.top + b.ysize ≤ (nrows : Int) ∧
        1 ≤ b.ysize ∧ 0 ≤ b.left ∧ b.left + b.xsize ≤ (ncols : Int) ∧
        1 ≤ b.xsize := by
  intro m
  induction m with
  | zero =>
    intro top hle b hb
    rw [makeBlockRows, dif_neg (by omega)] at hb
    exact absurd hb (by simp)
  | succ m ih =>
    intro top hle b hb
    by_cases ht : top < nrows
    · rw [makeBlockRows, dif_pos ht] at hb
      have hy1 : 1 ≤ min B (nrows - top) := by omega
      have hmax : max 1 (min B (nrows - top)) = min B (nrows - top) := by
        omega
      rcases List.mem_append.mp hb with h1 | h1
      · obtain ⟨hbt, hby, hbl, hbr, hbx⟩ :=
          makeBlockRow_basics ncols B top (min B (nrows - top)) hB ncols 0
            (by omega) b h1
        refine ⟨hbt.symm.le, ?_, ?_, ?_, hbr, hbx⟩
        · rw [hbt, hby]
          push_cast
          omega
        · rw [hby]
          push_cast
          omega
        · exact_mod_cast hbl
      · obtain ⟨hbt, hbn, hy, hbl, hbr, hbx⟩ := ih
          (top + max 1 (min B (nrows - top))) (by omega) b h1
        refine ⟨?_, hbn, hy, hbl, hbr, hbx⟩
        calc ((top : Nat) : Int) ≤
            ((top + max 1 (min B (nrows - top)) : Nat) : Int) := by
              push_cast; omega
          _ ≤ b.top := hbt
    · rw [makeBlockRows, dif_neg ht] at hb
      exact absurd hb (by simp)

theorem makeBlockRows_cover (nrows ncols B : Nat) (hB : 1 ≤ B) :
    ∀ (m top r c : Nat), nrows - top ≤ m → top ≤ r → r < nrows →
      c < ncols →
      ∃ b ∈ makeBlockRows nrows ncols B top,
        b.top ≤ (r : Int) ∧ (r : Int) < b.top + b.ysize ∧
        b.left ≤ (c : Int) ∧ (c : Int) < b.left + b.xsize := by
  intro m
  induction m with
  | zero => intro top r c hle htr hr hc; omega
  | succ m ih =>
    intro top r c hle htr hr hc
    have ht : top < nrows := by omega
    have hy1 : 1 ≤ min B (nrows - top) := by omega
    have hmax : max 1 (min B (nrows - top)) = min B (nrows - top) := by
      omega
    rw [makeBlockRows, dif_pos ht]
    by_cases hrin : r < top + min B (nrows - top)
    · obtain ⟨b, hb, hcl, hcr⟩ := makeBlockRow_cover ncols B top
        (min B (nrows - top)) hB ncols 0 c (by omega) (by omega) hc
      obtain ⟨hbt, hby, _, _, _⟩ :=
        makeBlockRow_basics ncols B top (min B (nrows - top)) hB ncols 0
          (by omega) b hb
      refine ⟨b, List.mem_append_left _ hb, ?_, ?_, hcl, hcr⟩
      · rw [hbt]
        push_cast
        omega
      · rw [hbt, hby]
        push_cast
        omega
    · obtain ⟨b, hb, hcov⟩ := ih (top + max 1 (min B (nrows - top))) r c
        (by omega) (by omega) hr hc
      exact ⟨b, List.mem_append_right _ hb, hcov⟩

theorem makeBlockRows_unique (nrows ncols B : Nat) (hB : 1 ≤ B) :
    ∀ (m top : Nat) (r c : Nat) (b1 b2 : BlockSpec), nrows - top ≤ m →
      b1 ∈ makeBlockRows nrows ncols B top →
      b2 ∈ makeBlockRows nrows ncols B top →
      b1.top ≤ (r : Int) → (r : Int) < b1.top + b1.ysize →
      b1.left ≤ (c : Int) → (c : Int) < b1.left + b1.xsize →
      b2.top ≤ (r : Int) → (r : Int) < b2.top + b2.ysize →
      b2.left ≤ (c : Int) → (c : Int) < b2.left + b2.xsize →
      b1 = b2 := by
  intro m
  induction m with
  | zero =>
    intro top r c b1 b2 hle hb1 hb2 _ _ _ _ _ _ _ _
    rw [makeBlockRows, dif_neg (by omega)] at hb1
    exact absurd hb1 (by simp)
  | succ m ih =>
    intro top r c b1 b2 hle hb1 hb2 h1t h1b h1l h1r h2t h2b h2l h2r
    by_cases ht : top < nrows
    · rw [makeBlockRows, dif_pos ht] at hb1 hb2
      have hy1 : 1 ≤ min B (nrows - top) := by omega
      have hmax : max 1 (min B (nrows - top)) = min B (nrows - top) := by
        omega
      have hrowbd : ∀ b ∈ makeBlockRow ncols B top (min B (nrows - top))
          0, b.top = (top : Int) ∧
            b.top + b.ysize = ((top + min B (nrows - top) : Nat) : Int) := by
        intro b hb
        obtain ⟨hbt, hby, _, _, _⟩ :=
          makeBlockRow_basics ncols B top (min B (nrows - top)) hB ncols 0
            (by omega) b hb
        refine ⟨hbt, ?_⟩
        rw [hbt, hby]
        push_cast
        ring
      have htailbd : ∀ b ∈ makeBlockRows nrows ncols B
          (top + max 1 (min B (nrows - top))),
          ((top + min B (nrows - top) : Nat) : Int) ≤ b.top := by
        intro b hb
        have := (makeBlockRows_basics nrows ncols B hB m
          (top + max 1 (min B (nrows - top))) (by omega) b hb).1
        calc ((top + min B (nrows - top) : Nat) : Int) =
            ((top + max 1 (min B (nrows - top)) : Nat) : Int) := by
              rw [hmax]
          _ ≤ b.top := this
      rcases List.mem_append.mp hb1 with hc1 | hc1 <;>
        rcases List.mem_append.mp hb2 with hc2 | hc2
      · exact makeBlockRow_unique ncols B top (min B (nrows - top)) hB
          ncols 0 c b1 b2 (by omega) hc1 hc2 h1l h1r h2l h2r
      · exfalso
        have hx1 := (hrowbd b1 hc1).2
        have hx2 := htailbd b2 hc2
        rw [hx1] at h1b
        omega
      · exfalso
        have hx1 := (hrowbd b2 hc2).2
        have hx2 := htailbd b1 hc1
        rw [hx1] at h2b
        omega
      · exact ih (top + max 1 (min B (nrows - top))) r c b1 b2 (by omega)
          hc1 hc2 h1t h1b h1l h1r h2t h2b h2l h2r
    · rw [makeBlockRows, dif_neg ht] at hb1
      exact absurd hb1 (by simp)

/-- C9.  The tile list is a row-major traversal with B x B tiles
clipped at the right and bottom edges: for the 100x100 grid with
blockSize 64 it is exactly the four tiles 64x64, 36x64, 64x36, 36x36;
in general every tile lies inside the grid, and every grid pixel is
covered by exactly one tile (the tiles are pairwise disjoint and cover
the grid exactly). -/
theorem makeOutputBlockList_tiling (nrows ncols blocksize : Nat)
    (hB : 1 ≤ blocksize) :
    (makeOutputBlockList 100 100 64 =
      [⟨0, 0, 64, 64⟩, ⟨0, 64, 36, 64⟩, ⟨64, 0, 64, 36⟩,
        ⟨64, 64, 36, 36⟩]) ∧
    (∀ b ∈ makeOutputBlockList nrows ncols blocksize,
      0 ≤ b.top ∧ b.top + b.ysize ≤ (nrows : Int) ∧
      0 ≤ b.left ∧ b.left + b.xsize ≤ (ncols : Int)) ∧
    (∀ r c : Nat, r < nrows → c < ncols →
      ∃! b : BlockSpec, b ∈ makeOutputBlockList nrows ncols blocksize ∧
        b.top ≤ (r : Int) ∧ (r : Int) < b.top + b.ysize ∧
        b.left ≤ (c : Int) ∧ (c : Int) < b.left + b.xsize) := by
  refine ⟨?_, ?_, ?_⟩
  · rw [makeOutputBlockList]
    repeat (first | (rw [makeBlockRow]; norm_num) |
      (rw [makeBlockRows]; norm_num))
  · intro b hb
    obtain ⟨h1, h2, _, h4, h5, _⟩ := makeBlockRows_basics nrows ncols
      blocksize hB nrows 0 (by omega) b hb
    exact ⟨by exact_mod_cast h1, h2, h4, h5⟩
  · intro r c hr hc
    obtain ⟨b, hb, hcov⟩ := makeBlockRows_cover nrows ncols blocksize hB
      nrows 0 r c (by omega) (by omega) hr hc
    refine ⟨b, ⟨hb, hcov⟩, ?_⟩
    rintro b2 ⟨hb2, hcov2⟩
    exact makeBlockRows_unique nrows ncols blocksize hB nrows 0 r c b2 b
      (by omega) hb2 hb hcov2.1 hcov2.2.1 hcov2.2.2.1 hcov2.2.2.2
      hcov.1 hcov.2.1 hcov.2.2.1 hcov.2.2.2

/-- Witness for C9 at a concrete input: blockSize 64 on the 100x100
grid yields the four claimed tiles. -/
theorem makeOutputBlockList_tiling_witness :
    1 ≤ 64 ∧
    makeOutputBlockList 100 100 64 =
      [⟨0, 0, 64, 64⟩, ⟨0, 64, 36, 64⟩, ⟨64, 0, 64, 36⟩,
        ⟨64, 64, 36, 36⟩] :=
  ⟨by decide, (makeOutputBlockList_tiling 100 100 64 (by decide)).1⟩

end Moamosaic
